import Mathlib

/-!
# CHOLMOD/MATLAB/nesdis.c : the MATLAB gateway of CHOLMOD's nested dissection

A shallow embedding of `mexFunction` of `CHOLMOD/MATLAB/nesdis.c` (compiled
without `NPARTITION`).  The gateway reads up to three MATLAB arguments
`(A, mode, opts)`, selects `A->stype` and the transpose flag from the first
character of `mode`, checks that a symmetric input is square, calls
`cholmod_l_nested_dissection` once and converts the three work arrays into
the MATLAB outputs `[p, cp, cmember]`.

Functions the gateway calls but whose bodies live elsewhere (`sputil2.c`, the
CHOLMOD Core and Partition modules, the MATLAB runtime) enter the model as
fields of `Env`, or as small definitions whose doc comment says what they
stand for.  `mexErrMsgTxt` never returns: a call that reaches it stops with
status `error msg` and with the output slots as they were at that point.
Memory management (`cholmod_l_malloc`, `cholmod_l_free`, `sputil2_free_sparse`)
and printing have no effect on the outcome and are left out.

The second part models the ordering engine behind `cholmod_l_nested_dissection`
from the design document, and proves that the permutation it composes is a
bijection on the vertices.
-/

namespace Nesdis

/-! ## Data model -/

/-- Pattern of a `cholmod_sparse` matrix in compressed-column form: `cols[j]`
holds the row indices of column `j`.  `stype` is 0 for an unsymmetric matrix,
negative when only the lower triangle is used, positive for the upper one. -/
structure cholmod_sparse where
  nrow : Nat
  ncol : Nat
  stype : Int
  cols : List (List Nat)
deriving DecidableEq, Repr

/-- A MATLAB array as far as the gateway looks at it.  `D` is the type of a
C `double`. -/
inductive mxArray (D : Type) where
  | sparse (nrow ncol : Nat) (cols : List (List Nat))
  | full (x : List D)
  | char (s : List Nat)
deriving DecidableEq, Repr

/-- The fields of `cholmod_common` the gateway writes, `cm->method [0].nd_*`,
and `other` for everything else held in the structure. -/
structure cholmod_common (D R : Type) where
  nd_small : Nat
  nd_components : Int
  nd_oksep : D
  nd_camd : Int
  other : R
deriving DecidableEq, Repr

/-- What `cholmod_l_nested_dissection` leaves behind: its return value and
the contents of the three caller-allocated arrays of `n` entries each. -/
structure EngineOut (n : Nat) where
  ncomp : Int
  Perm : Fin n → Int
  CParent : Fin n → Int
  Cmember : Fin n → Int

/-- The collaborators of the gateway that are defined outside `nesdis.c`. -/
structure Env (D R : Type) where
  /-- The macro `LEN` of `sputil2.h`, the size of `buf`. -/
  LEN : Nat
  /-- The structure `Common` after `cholmod_l_start` and `sputil2_config`. -/
  start : cholmod_common D R
  /-- C conversion of a `double` to the `size_t` field `nd_small`. -/
  double_to_size : D → Nat
  /-- C conversion of a `double` to an `int` field. -/
  double_to_int : D → Int
  /-- The function `sputil2_get_sparse_pattern`; it may stop with an error message. -/
  sputil2_get_sparse_pattern : mxArray D → Except String cholmod_sparse
  /-- The call `cholmod_l_transpose (A, 0, cm)`. -/
  cholmod_l_transpose : cholmod_sparse → cholmod_sparse
  /-- The call `cholmod_l_nested_dissection (C, NULL, 0, Perm, CParent, Cmember, cm)`,
  with `n` the number of entries of each of the three arrays. -/
  cholmod_l_nested_dissection :
    cholmod_sparse → cholmod_common D R → (n : Nat) → EngineOut n

/-- How a call of the gateway ends. `undefined` marks a read outside an
array, which C leaves without meaning. -/
inductive Status where
  | ok
  | error (msg : String)
  | undefined
deriving DecidableEq, Repr

/-- One call of `cholmod_l_nested_dissection`: the matrix and the control
parameters it received, the size of the work arrays, and its return value. -/
structure EngineCall (D R : Type) where
  C : cholmod_sparse
  cm : cholmod_common D R
  n : Nat
  ncomp : Int
deriving DecidableEq, Repr

/-- Observable result of one call of `mexFunction`: the status, the three
output slots `pargout [0..2]` and the engine calls made, in order. -/
structure Outcome (D R : Type) where
  status : Status
  p : Option (List Int)
  cp : Option (List Int)
  cmember : Option (List Int)
  calls : List (EngineCall D R)
deriving DecidableEq, Repr

/-! ## MATLAB and libc primitives -/

/-- The test `mxIsChar` of the MATLAB API. -/
def mxIsChar {D : Type} : mxArray D → Bool
  | .char _ => true
  | _ => false

/-- The count `mxGetNumberOfElements` of the MATLAB API. -/
def mxGetNumberOfElements {D : Type} : mxArray D → Nat
  | .sparse nrow ncol _ => nrow * ncol
  | .full x => x.length
  | .char s => s.length

/-- The cast `(double *) mxGetData`: the doubles of a full array.  The raw bytes of the
other classes read as doubles are not modelled; the list is empty for them, so
that every read from it is outside the array. -/
def mxGetData {D : Type} : mxArray D → List D
  | .full x => x
  | _ => []

/-- The call `mxGetString (pa, buf, buflen)` of the MATLAB API: the bytes written to
`buf`, at most `buflen - 1` characters followed by the terminating zero. -/
def mxGetString {D : Type} (pa : mxArray D) (buflen : Nat) : List Nat :=
  match pa with
  | .char s => if buflen = 0 then [] else s.take (buflen - 1) ++ [0]
  | _ => []

/-- The function `tolower` of the C library, in the C locale, on character codes. -/
def tolower (c : Nat) : Nat :=
  if 'A'.toNat ≤ c ∧ c ≤ 'Z'.toNat then c + 32 else c

/-- Modelled from the spec: `sputil2_put_int (P, count, one)` is defined in
`sputil2.c`, outside `nesdis.c`.  By §6 the outputs are
integer arrays of length `n` and `ncomp`, and the usage comment of `nesdis.c`
counts components and vertices from 1: the result is the MATLAB vector
`P [0] + one, ..., P [count-1] + one`.  `none` when `count` is negative or
exceeds the `n` entries of `P`, a read outside the array. -/
def sputil2_put_int {n : Nat} (P : Fin n → Int) (count : Int) (one : Int) :
    Option (List Int) :=
  if 0 ≤ count ∧ count ≤ n then
    some (((List.finRange n).take count.toNat).map fun k => P k + one)
  else none

/-! ## The gateway, section by section -/

/-- Lines 86-94, "get inputs": the optional third argument overrides the
first control parameters.  `none` when an element is read outside the data. -/
def get_opts {D R : Type} (env : Env D R) (cm : cholmod_common D R)
    (pargin : List (mxArray D)) : Option (cholmod_common D R) :=
  if pargin.length > 2 then
    match pargin[2]? with
    | none => none
    | some a =>
      let x := mxGetData a
      let n := mxGetNumberOfElements a
      (if n > 0 then (x[0]?).map fun v => { cm with nd_small := env.double_to_size v }
        else some cm).bind fun cm =>
      (if n > 1 then (x[1]?).map fun v => { cm with nd_components := env.double_to_int v }
        else some cm).bind fun cm =>
      (if n > 2 then (x[2]?).map fun v => { cm with nd_oksep := v }
        else some cm).bind fun cm =>
      (if n > 3 then (x[3]?).map fun v => { cm with nd_camd := env.double_to_int v }
        else some cm)
  else some cm

/-- Lines 106-139, "get A->stype": the pair `(A->stype, transpose)` chosen by
the optional second argument, or the error message. -/
def get_mode {D R : Type} (env : Env D R) (pargin : List (mxArray D)) :
    Except String (Int × Bool) :=
  if pargin.length > 1 then
    match pargin[1]? with
    | none => .ok (-1, false)
    | some a =>
      -- buf [0] = '\0' ; if (mxIsChar (pargin [1])) mxGetString (...)
      let buf := if mxIsChar a then mxGetString a env.LEN else []
      let c := buf.headD 0
      if tolower c = 'r'.toNat then .ok (0, false)
      else if tolower c = 'c'.toNat then .ok (0, true)
      else if tolower c = 's'.toNat then .ok (-1, false)
      else .error "nesdis: unrecognized mode"
  else .ok (-1, false)

/-- A call that stops in `mexErrMsgTxt` before any output is assigned. -/
def fail {D R : Type} (msg : String) (calls : List (EngineCall D R)) : Outcome D R :=
  { status := .error msg, p := none, cp := none, cmember := none, calls := calls }

/-- Lines 177-191, "free workspace and return results". -/
def return_results {D R : Type} (nargout : Nat) (C : cholmod_sparse)
    (cm : cholmod_common D R) (n : Nat) (r : EngineOut n) : Outcome D R :=
  let calls := [{ C := C, cm := cm, n := n, ncomp := r.ncomp : EngineCall D R }]
  if r.ncomp < 0 then fail "nesdis failed" calls
  else
    match sputil2_put_int r.Perm n 1 with
    | none => { status := .undefined, p := none, cp := none, cmember := none, calls := calls }
    | some p =>
      if nargout > 1 then
        match sputil2_put_int r.CParent r.ncomp 1 with
        | none => { status := .undefined, p := some p, cp := none, cmember := none,
                    calls := calls }
        | some cp =>
          if nargout > 2 then
            match sputil2_put_int r.Cmember n 1 with
            | none => { status := .undefined, p := some p, cp := some cp, cmember := none,
                        calls := calls }
            | some cmember =>
              { status := .ok, p := some p, cp := some cp, cmember := some cmember,
                calls := calls }
          else { status := .ok, p := some p, cp := some cp, cmember := none, calls := calls }
      else { status := .ok, p := some p, cp := none, cmember := none, calls := calls }

/-- Lines 150-171, "order the matrix with CHOLMOD's nested dissection",
followed by the return section. -/
def order {D R : Type} (env : Env D R) (nargout : Nat) (A : cholmod_sparse)
    (transpose : Bool) (cm : cholmod_common D R) : Outcome D R :=
  if transpose then
    -- C = A', and then order C*C' with cholmod_l_nested_dissection
    let C := env.cholmod_l_transpose A
    let n := C.nrow
    return_results nargout C cm n (env.cholmod_l_nested_dissection C cm n)
  else
    -- order A or A*A' with cholmod_l_nested_dissection
    let n := A.nrow
    return_results nargout A cm n (env.cholmod_l_nested_dissection A cm n)

/-- The gateway `mexFunction (nargout, pargout, nargin, pargin)`, with
`nargin` the length of `pargin`. -/
def mexFunction {D R : Type} (env : Env D R) (nargout : Nat)
    (pargin : List (mxArray D)) : Outcome D R :=
  let nargin := pargin.length
  if nargout > 3 ∨ nargin < 1 ∨ nargin > 3 then
    fail "Usage: [p cp cmember] = nesdis (A, mode, opts)" []
  else
    match get_opts env env.start pargin with
    | none => { status := .undefined, p := none, cp := none, cmember := none, calls := [] }
    | some cm =>
      match pargin[0]? with
      | none => { status := .undefined, p := none, cp := none, cmember := none, calls := [] }
      | some a0 =>
        match env.sputil2_get_sparse_pattern a0 with
        | .error msg => fail msg []
        | .ok A0 =>
          match get_mode env pargin with
          | .error msg => fail msg []
          | .ok (stype, transpose) =>
            let A := { A0 with stype := stype }
            if A.stype ≠ 0 ∧ A.nrow ≠ A.ncol then
              fail "nesdis: A must be square" []
            else order env nargout A transpose cm

/-! ## Vocabulary of the statements -/

/-- The first character of a MATLAB argument: the first element of a
non-empty char array; no character for any other argument. -/
def first_character {D : Type} : mxArray D → Option Nat
  | .char (c :: _) => some c
  | _ => none

/-! ## A reference instance -/

/-- Transpose of a pattern, with sorted columns. -/
def transpose_pattern (A : cholmod_sparse) : cholmod_sparse :=
  { nrow := A.ncol, ncol := A.nrow, stype := -A.stype,
    cols := (List.range A.nrow).map fun i =>
      (List.range A.ncol).filter fun j => decide (i ∈ A.cols.getD j []) }

/-- An engine that returns `ncomp` and the natural ordering with every vertex
in component 0, a root. -/
def natural_engine (ncomp : Int) :
    cholmod_sparse → cholmod_common Int Unit → (n : Nat) → EngineOut n :=
  fun _ _ _ =>
    { ncomp := ncomp, Perm := fun k => k.val, CParent := fun _ => -1, Cmember := fun _ => 0 }

/-- An instance of `Env` with integer-valued doubles, the defaults of the
usage comment, and `natural_engine ncomp` as the engine. -/
def sampleEnv (ncomp : Int) : Env Int Unit :=
  { LEN := 16
    start := { nd_small := 200, nd_components := 0, nd_oksep := 1, nd_camd := 1, other := () }
    double_to_size := Int.toNat
    double_to_int := id
    sputil2_get_sparse_pattern := fun a =>
      match a with
      | .sparse nrow ncol cols => .ok { nrow := nrow, ncol := ncol, stype := 0, cols := cols }
      | _ => .error "sputil2_get_sparse_pattern: input must be sparse"
    cholmod_l_transpose := transpose_pattern
    cholmod_l_nested_dissection := natural_engine ncomp }

/-- The character codes of a string literal. -/
def chars (s : String) : List Nat := s.toList.map Char.toNat

/-! ## The ordering engine, modelled from the specification

`cholmod_l_nested_dissection` belongs to the CHOLMOD Partition module and is
defined outside `nesdis.c`.  The definitions of this section follow the
design document: the Graph Model
(§3, §4.1), the two collaborator interfaces (§4.2, §4.3), the Dissection
Scheduler (§4.4) in the work-stack form of §9, the Separator Tree and
Component Tracker (§4.5) and the Permutation Composer (§4.6). -/

/-- Modelled from the spec: the mode selector `symmetric | row | column` of
§6, the tagged variant `Mode` of §9. -/
inductive Mode where
  | Symmetric
  | Row
  | Column
deriving DecidableEq, Repr

/-- Modelled from the spec: the Graph of §3, vertices `0..n-1` with an
adjacency list for each vertex. -/
structure Graph where
  n : Nat
  adj : List (List Nat)
deriving DecidableEq, Repr

/-- Modelled from the spec: the adjacency relation of a Graph (§3). -/
def Graph.edge (G : Graph) (u v : Nat) : Bool :=
  (G.adj.getD u []).contains v

/-- Modelled from the spec: `build_graph (matrix, mode)` of §4.1 with the
three derivations of §3.  Symmetric mode uses the strict lower triangle and
its mirror, row mode joins two rows that share a column, column mode joins
two columns that share a row; the diagonal is dropped and no edge is listed
twice.  `none` is `InvalidShape`. -/
def build_graph (A : cholmod_sparse) (mode : Mode) : Option Graph :=
  match mode with
  | .Symmetric =>
    if A.nrow ≠ A.ncol then none
    else some
      { n := A.nrow
        adj := (List.range A.nrow).map fun u => (List.range A.nrow).filter fun v =>
          (v < u && (A.cols.getD v []).contains u) || (u < v && (A.cols.getD u []).contains v) }
  | .Row => some
      { n := A.nrow
        adj := (List.range A.nrow).map fun u => (List.range A.nrow).filter fun v =>
          u != v && A.cols.any fun col => col.contains u && col.contains v }
  | .Column => some
      { n := A.ncol
        adj := (List.range A.ncol).map fun u => (List.range A.ncol).filter fun v =>
          u != v && (A.cols.getD u []).any fun i => (A.cols.getD v []).contains i }

/-- Modelled from the spec: the subgraph induced by the vertex list `S`,
"referenced by original vertex ids remapped to local indices" (§4.2): local
index `k` stands for `S[k]`. -/
def induced (G : Graph) (S : List Nat) : Graph :=
  { n := S.length
    adj := S.map fun u => (List.range S.length).filter fun l => G.edge u (S.getD l 0) }

/-- Modelled from the spec: what the Separator Oracle of §4.2 answers, in
local indices: a separator with the two sides, `PartitionFailed`, or an
unrecoverable fault of the class that §4.4 propagates. -/
inductive OracleResult where
  | split (separator_vertices side_A_vertices side_B_vertices : List Nat)
  | PartitionFailed
  | fatal
deriving DecidableEq, Repr

/-- Modelled from the spec: the Control Parameters of §3. -/
structure Control (D : Type) where
  small_threshold : Nat
  split_components : Bool
  separator_quality_threshold : D
  leaf_ordering_mode : Int
deriving DecidableEq, Repr

/-- Modelled from the spec: the Control Parameters of §3 as the gateway
passes them, `nd_small`, `nd_components`, `nd_oksep`, `nd_camd` in the order
of the usage comment of `nesdis.c`. -/
def control_of {D R : Type} (cm : cholmod_common D R) : Control D :=
  { small_threshold := cm.nd_small
    split_components := cm.nd_components != 0
    separator_quality_threshold := cm.nd_oksep
    leaf_ordering_mode := cm.nd_camd }

/-- Modelled from the spec: a Component of §3 as the tracker of §4.5 records
it: its parent (`none` for a root), whether it is a separator (a component
that triggered recursion) or a leaf, and its vertices in emission order. -/
structure Component where
  parent : Option Nat
  is_separator : Bool
  vertices : List Nat
deriving DecidableEq, Repr

/-- Modelled from the spec: `register (parent_id_or_none, vertex_set)` of
§4.5; the new component gets the next id, in discovery order. -/
def register (tracker : List Component) (parent : Option Nat) (is_separator : Bool)
    (vertices : List Nat) : Nat × List Component :=
  (tracker.length, tracker ++ [⟨parent, is_separator, vertices⟩])

/-- Modelled from the spec: `parent_of (component_id)` of §4.5. -/
def parent_of (tracker : List Component) (c : Nat) : Option Nat :=
  (tracker[c]?).bind fun k => k.parent

/-- Modelled from the spec: `membership_of (vertex)` of §4.5. -/
def membership_of (tracker : List Component) (v : Nat) : Option Nat :=
  (List.range tracker.length).find? fun c =>
    match tracker[c]? with
    | some k => k.vertices.contains v
    | none => false

/-- Modelled from the spec: the traversal of §4.4 step 1 that discovers one
connected component: `comp` takes from `rest` the vertices adjacent to it,
again and again, until none is left; the result is the component and the
vertices outside it. -/
def reach (G : Graph) : Nat → List Nat → List Nat → List Nat × List Nat
  | 0, comp, rest => (comp, rest)
  | fuel + 1, comp, rest =>
    let near := rest.filter fun v => comp.any fun u => G.edge u v
    let far := rest.filter fun v => !(comp.any fun u => G.edge u v)
    if near.isEmpty then (comp, rest) else reach G fuel (comp ++ near) far

/-- Modelled from the spec: the connected components of the subgraph on `S`
(§4.4 step 1), in order of discovery.  Each component uses one unit of fuel,
so fuel `S.length` covers them all. -/
def connected_components (G : Graph) : Nat → List Nat → List (List Nat)
  | 0, _ => []
  | _ + 1, [] => []
  | fuel + 1, v :: rest =>
    let r := reach G rest.length [v] rest
    r.1 :: connected_components G fuel r.2

/-- Modelled from the spec: "`S` has no edges" of §4.4 step 2. -/
def no_edges (G : Graph) (S : List Nat) : Bool :=
  S.all fun u => S.all fun v => !G.edge u v

/-- Modelled from the spec: the leaf handling of §4.4 step 2: the local order
of the Leaf Orderer of §4.3 if `leaf_ordering_mode` requests it, else the
natural order; the result lists the vertices of `S` in that order. -/
def leaf_order {D : Type} (order_leaf : Graph → Mode → List Nat) (ctl : Control D)
    (mode : Mode) (G : Graph) (S : List Nat) : List Nat :=
  if ctl.leaf_ordering_mode ≠ 0 then (order_leaf (induced G S) mode).map fun k => S.getD k 0
  else S

/-- Modelled from the spec: what `process` decides for one subgraph (§4.4):
an unrecoverable fault, a leaf with its ordered vertices, a fan-out into
connected components, or an accepted separator with its two sides. -/
inductive Decision where
  | fatal
  | leaf (vertices : List Nat)
  | fan_out (pieces : List (List Nat))
  | accept (separator side_A side_B : List Nat)
deriving DecidableEq, Repr

/-- Modelled from the spec: the algorithm `process (subgraph S, depth)` of
§4.4 for one subgraph.  A subgraph of size 0 or 1 is a trivial leaf; step 1
fans out a disconnected `S`; step 2 makes a small or edgeless `S` a leaf;
step 3 asks the oracle and falls back to a leaf on `PartitionFailed` or on a
separator with `|separator| ≥ threshold × |S|`; step 4 accepts.  An oracle
answer that does not partition the vertices of `S` is the fatal malformed
result of §7. -/
def process {D : Type} [LinearOrderedRing D] (find_separator : Graph → OracleResult)
    (order_leaf : Graph → Mode → List Nat) (ctl : Control D) (mode : Mode) (G : Graph)
    (S : List Nat) : Decision :=
  if S.length ≤ 1 then .leaf S
  else
    let pieces := connected_components G S.length S
    if ctl.split_components && decide (1 < pieces.length) then .fan_out pieces
    else if decide (S.length < ctl.small_threshold) || no_edges G S then
      .leaf (leaf_order order_leaf ctl mode G S)
    else
      match find_separator (induced G S) with
      | .fatal => .fatal
      | .PartitionFailed => .leaf (leaf_order order_leaf ctl mode G S)
      | .split sep a b =>
        if !(sep ++ a ++ b).isPerm (List.range S.length) then .fatal
        else if ctl.separator_quality_threshold * (S.length : D) ≤ (sep.length : D) then
          .leaf (leaf_order order_leaf ctl mode G S)
        else .accept (sep.map fun k => S.getD k 0) (a.map fun k => S.getD k 0)
          (b.map fun k => S.getD k 0)

/-- Modelled from the spec: the Dissection Scheduler of §4.4 as the explicit
work-stack of §9: pending subgraphs with their parent id, handled depth
first, side A before side B, each registration taking the next component id.
A leaf and a separator are registered when they are decided; the pieces of a
fan-out are processed under the parent of the subgraph they come from and
are registered when their own turn comes.  `none` is `OrderingFailed`, also
when the fuel ends before the stack is empty (a recursion that does not
terminate). -/
def schedule {D : Type} [LinearOrderedRing D] (find_separator : Graph → OracleResult)
    (order_leaf : Graph → Mode → List Nat) (ctl : Control D) (mode : Mode) (G : Graph) :
    Nat → List (List Nat × Option Nat) → List Component → Option (List Component)
  | _, [], tracker => some tracker
  | 0, _ :: _, _ => none
  | fuel + 1, (S, parent) :: pending, tracker =>
    match process find_separator order_leaf ctl mode G S with
    | .fatal => none
    | .leaf vertices =>
      schedule find_separator order_leaf ctl mode G fuel pending
        (register tracker parent false vertices).2
    | .fan_out pieces =>
      schedule find_separator order_leaf ctl mode G fuel
        (pieces.map (fun K => (K, parent)) ++ pending) tracker
    | .accept sep a b =>
      let r := register tracker parent true sep
      schedule find_separator order_leaf ctl mode G fuel
        ((a, some r.1) :: (b, some r.1) :: pending) r.2

/-- Modelled from the spec: the state of the bottom-up walk of the composer
(§2, §4.6): for each separator the vertices emitted so far below it, and the
vertices emitted at root level. -/
structure Walk where
  below : Nat → List Nat
  top : List Nat

/-- Modelled from the spec: the composer of §4.6 at component `c`: a leaf
emits its vertices, a separator emits what lies below it and then its own
vertices; the block goes in front of what its parent, or the root level, has
collected from the components of larger id. -/
def compose_step (tracker : List Component) (w : Walk) (c : Nat) : Walk :=
  match tracker[c]? with
  | none => w
  | some k =>
    let block := if k.is_separator then w.below c ++ k.vertices else k.vertices
    match k.parent with
    | none => { w with top := block ++ w.top }
    | some q => { w with below := Function.update w.below q (block ++ w.below q) }

/-- Modelled from the spec: the bottom-up walk of §4.6 over the components
of id below `c`, from the largest id down. -/
def compose_from (tracker : List Component) : Nat → Walk → Walk
  | 0, w => w
  | c + 1, w => compose_from tracker c (compose_step tracker w c)

/-- Modelled from the spec: `compose (tree, local permutations)` of §4.6, the
global permutation: new position to original vertex id. -/
def compose (tracker : List Component) : List Nat :=
  (compose_from tracker tracker.length { below := fun _ => [], top := [] }).top

/-- Modelled from the spec: the ordering engine as the gateway calls it
(§2 data flow).  The graph is built in symmetric mode when `stype` is not 0
and in row mode otherwise; the scheduler starts from the whole vertex set as
a root; on success the return value is the number of components and the
arrays hold the permutation, the parent of each component (-1 for a root)
and the component of each vertex.  A failure returns -1. -/
def nested_dissection {D R : Type} [LinearOrderedRing D]
    (find_separator : Graph → OracleResult) (order_leaf : Graph → Mode → List Nat)
    (fuel : Nat) (C : cholmod_sparse) (cm : cholmod_common D R) (n : Nat) : EngineOut n :=
  let mode := if C.stype = 0 then Mode.Row else Mode.Symmetric
  let failed : EngineOut n :=
    { ncomp := -1, Perm := fun _ => 0, CParent := fun _ => 0, Cmember := fun _ => 0 }
  match build_graph C mode with
  | none => failed
  | some G =>
    match schedule find_separator order_leaf (control_of cm) mode G fuel
        [(List.range G.n, none)] [] with
    | none => failed
    | some tracker =>
      let perm := compose tracker
      { ncomp := tracker.length
        Perm := fun i => ((perm.getD i 0 : Nat) : Int)
        CParent := fun c =>
          match parent_of tracker c with
          | some q => (q : Int)
          | none => -1
        Cmember := fun v =>
          match membership_of tracker v with
          | some c => (c : Int)
          | none => -1 }

/-! ## Invariants of the engine -/

/-- Tree validity (§3, §8): the parent of a component was registered
strictly earlier and is a separator. -/
def valid_tree (tracker : List Component) : Prop :=
  ∀ (c : Nat) (k : Component), tracker[c]? = some k → ∀ q, k.parent = some q →
    q < c ∧ ∃ kq : Component, tracker[q]? = some kq ∧ kq.is_separator = true

/-- Every pending subgraph hangs below a registered separator, or is a root. -/
def valid_pending (tracker : List Component) (pending : List (List Nat × Option Nat)) :
    Prop :=
  ∀ item ∈ pending, ∀ q, item.2 = some q →
    ∃ kq : Component, tracker[q]? = some kq ∧ kq.is_separator = true

/-- The contract of the Leaf Orderer (§4.3): a permutation of the local
indices of the subgraph it is given. -/
def leaf_contract (order_leaf : Graph → Mode → List Nat) : Prop :=
  ∀ g mode, (order_leaf g mode).Perm (List.range g.n)

/-! ## Collaborators for the examples -/

/-- An oracle that cuts a subgraph at its middle vertex. -/
def middle_cut (g : Graph) : OracleResult :=
  if g.n < 2 then .PartitionFailed
  else .split [g.n / 2] (List.range (g.n / 2))
    (List.range' (g.n / 2 + 1) (g.n - g.n / 2 - 1))

/-- A leaf orderer that keeps the natural order. -/
def natural_leaf (g : Graph) (_ : Mode) : List Nat := List.range g.n

/-- The instance `sampleEnv` with the engine of the specification, run with
`middle_cut`, `natural_leaf` and fuel 100. -/
def specEnv : Env Int Unit :=
  { sampleEnv 1 with
    cholmod_l_nested_dissection := nested_dissection middle_cut natural_leaf 100 }

/-- The 7-by-7 tridiagonal pattern: the path graph on 7 vertices (§8,
scenario 3). -/
def path7 : List (List Nat) := [[0, 1], [1, 2], [2, 3], [3, 4], [4, 5], [5, 6], [6]]

/-! ## Termination measure of the scheduler -/

/-- The contract of the Separator Oracle (§4.2) that makes the recursion of
§4.4 end: no unrecoverable fault, every answer partitions the vertices of the
subgraph, and no answer hands the whole subgraph back as one side with an
empty separator. -/
def oracle_contract (find_separator : Graph → OracleResult) : Prop :=
  ∀ g, find_separator g ≠ .fatal ∧
    ∀ sep a b, find_separator g = .split sep a b →
      (sep ++ a ++ b).Perm (List.range g.n) ∧ (sep ≠ [] ∨ (a ≠ [] ∧ b ≠ []))

/-- Steps the scheduler needs at most for a subgraph of `k` vertices. -/
def steps (k : Nat) : Nat := if k = 0 then 1 else 2 * k - 1

/-- Steps the scheduler needs at most for the pending subgraphs. -/
def pending_steps (pending : List (List Nat × Option Nat)) : Nat :=
  (pending.map fun item => steps item.1.length).sum

/-! ## Lemmas on the sections of the gateway -/

theorem tolower_eq_r (c : Nat) : tolower c = 'r'.toNat ↔ c = 'r'.toNat ∨ c = 'R'.toNat := by
  unfold tolower
  simp only [Char.reduceToNat]
  split <;> omega

theorem tolower_eq_c (c : Nat) : tolower c = 'c'.toNat ↔ c = 'c'.toNat ∨ c = 'C'.toNat := by
  unfold tolower
  simp only [Char.reduceToNat]
  split <;> omega

theorem tolower_eq_s (c : Nat) : tolower c = 's'.toNat ↔ c = 's'.toNat ∨ c = 'S'.toNat := by
  unfold tolower
  simp only [Char.reduceToNat]
  split <;> omega

theorem tolower_zero : tolower 0 = 0 := by decide

/-- With room for one character in `buf`, `buf [0]` is the first character
of a non-empty char array. -/
theorem mxGetString_head {D : Type} (c : Nat) (s : List Nat) (buflen : Nat)
    (h : 2 ≤ buflen) :
    (mxGetString (.char (c :: s) : mxArray D) buflen).headD 0 = c := by
  obtain ⟨k, rfl⟩ : ∃ k, buflen = k + 2 := ⟨buflen - 2, by omega⟩
  simp [mxGetString]

/-- The character `buf [0]` is zero when the first character is not copied. -/
theorem mxGetString_head_nil {D : Type} (buflen : Nat) :
    (mxGetString (.char [] : mxArray D) buflen).headD 0 = 0 := by
  by_cases h : buflen = 0 <;> simp [mxGetString, h]

/-- The mode section on a single argument keeps the defaults. -/
theorem get_mode_one {D R : Type} (env : Env D R) (a0 : mxArray D) :
    get_mode env [a0] = .ok (-1, false) := by
  simp [get_mode]

/-- The mode section when a second argument is present. -/
theorem get_mode_cons_cons {D R : Type} (env : Env D R) (hLEN : 2 ≤ env.LEN)
    (a0 a1 : mxArray D) (rest : List (mxArray D)) :
    get_mode env (a0 :: a1 :: rest) =
      match first_character a1 with
      | some c =>
        if c = 'r'.toNat ∨ c = 'R'.toNat then .ok (0, false)
        else if c = 'c'.toNat ∨ c = 'C'.toNat then .ok (0, true)
        else if c = 's'.toNat ∨ c = 'S'.toNat then .ok (-1, false)
        else .error "nesdis: unrecognized mode"
      | none => .error "nesdis: unrecognized mode" := by
  have hlen : (a0 :: a1 :: rest).length > 1 := by simp
  unfold get_mode
  simp only [hlen, if_true, List.getElem?_cons_succ, List.getElem?_cons_zero]
  cases a1 with
  | sparse nrow ncol cols => simp [mxIsChar, tolower_zero, first_character]
  | full x => simp [mxIsChar, tolower_zero, first_character]
  | char s =>
    cases s with
    | nil =>
      simp only [mxIsChar, if_true, mxGetString_head_nil, tolower_zero, first_character]
      simp
    | cons c s =>
      simp only [mxIsChar, if_true, mxGetString_head c s env.LEN hLEN, tolower_eq_r,
        tolower_eq_c, tolower_eq_s, first_character]

/-- The gateway after its argument checks: usage accepted, `opts` readable,
`A` accepted by `sputil2_get_sparse_pattern`. -/
theorem mexFunction_accepted {D R : Type} (env : Env D R) (nargout : Nat)
    (pargin : List (mxArray D)) (cm : cholmod_common D R) (a0 : mxArray D)
    (A0 : cholmod_sparse)
    (hout : nargout ≤ 3) (hin1 : 1 ≤ pargin.length) (hin3 : pargin.length ≤ 3)
    (hopts : get_opts env env.start pargin = some cm)
    (h0 : pargin[0]? = some a0)
    (hpat : env.sputil2_get_sparse_pattern a0 = .ok A0) :
    mexFunction env nargout pargin =
      match get_mode env pargin with
      | .error msg => fail msg []
      | .ok (stype, transpose) =>
        if stype ≠ 0 ∧ A0.nrow ≠ A0.ncol then fail "nesdis: A must be square" []
        else order env nargout { A0 with stype := stype } transpose cm := by
  unfold mexFunction
  have h : ¬ (nargout > 3 ∨ pargin.length < 1 ∨ pargin.length > 3) := by omega
  simp only [h, if_false, hopts, h0, hpat]

/-- The return section records exactly one engine call. -/
theorem return_results_calls {D R : Type} (nargout : Nat) (C : cholmod_sparse)
    (cm : cholmod_common D R) (n : Nat) (r : EngineOut n) :
    (return_results nargout C cm n r).calls =
      [{ C := C, cm := cm, n := n, ncomp := r.ncomp }] := by
  unfold return_results
  simp only [fail]
  repeat (first | rfl | split)

/-- The return section never reports the shape error. -/
theorem return_results_status_ne {D R : Type} (nargout : Nat) (C : cholmod_sparse)
    (cm : cholmod_common D R) (n : Nat) (r : EngineOut n) (msg : String)
    (hmsg : msg ≠ "nesdis failed") :
    (return_results nargout C cm n r).status ≠ .error msg := by
  unfold return_results
  simp only [fail]
  repeat (first | split | simp [Ne.symm hmsg])

/-- The ordering section records exactly one engine call. -/
theorem order_calls_length {D R : Type} (env : Env D R) (nargout : Nat)
    (A : cholmod_sparse) (transpose : Bool) (cm : cholmod_common D R) :
    (order env nargout A transpose cm).calls.length = 1 := by
  unfold order
  split <;> simp [return_results_calls]

/-- The ordering section reports no error other than an engine failure. -/
theorem order_status_ne {D R : Type} (env : Env D R) (nargout : Nat)
    (A : cholmod_sparse) (transpose : Bool) (cm : cholmod_common D R) (msg : String)
    (hmsg : msg ≠ "nesdis failed") :
    (order env nargout A transpose cm).status ≠ .error msg := by
  unfold order
  split <;> exact return_results_status_ne _ _ _ _ _ msg hmsg

/-- A vector made by `sputil2_put_int` has `count` entries, and `count` lies
within the array it was read from. -/
theorem sputil2_put_int_some {n : Nat} (P : Fin n → Int) (count one : Int) (l : List Int)
    (h : sputil2_put_int P count one = some l) :
    (l.length : Int) = count ∧ 0 ≤ count ∧ count ≤ n := by
  unfold sputil2_put_int at h
  split at h
  · rename_i hc
    simp only [Option.some.injEq] at h
    subst h
    refine ⟨?_, hc.1, hc.2⟩
    simp only [List.length_map, List.length_take, List.length_finRange]
    omega
  · simp at h

/-- Reading all `n` entries of an array of `n` entries is always defined. -/
theorem sputil2_put_int_full {n : Nat} (P : Fin n → Int) (one : Int) :
    sputil2_put_int P n one = some ((List.finRange n).map fun k => P k + one) := by
  unfold sputil2_put_int
  have h : (0 : Int) ≤ n ∧ (n : Int) ≤ n := ⟨by omega, le_refl _⟩
  simp only [h, and_self, if_true, Int.toNat_ofNat]
  rw [List.take_of_length_le (by simp)]

/-- The return section when the engine reports a failure. -/
theorem return_results_failed {D R : Type} (nargout : Nat) (C : cholmod_sparse)
    (cm : cholmod_common D R) (n : Nat) (r : EngineOut n) (h : r.ncomp < 0) :
    return_results nargout C cm n r =
      fail "nesdis failed" [{ C := C, cm := cm, n := n, ncomp := r.ncomp }] := by
  unfold return_results
  simp [h]

/-- The return section whenever the engine did not fail: `p` holds the `n`
entries of `Perm` shifted to base 1, whatever happens to the later outputs. -/
theorem return_results_p {D R : Type} (nargout : Nat) (C : cholmod_sparse)
    (cm : cholmod_common D R) (n : Nat) (r : EngineOut n) (h : 0 ≤ r.ncomp) :
    (return_results nargout C cm n r).p =
      some ((List.finRange n).map fun k => r.Perm k + 1) := by
  have hneg : ¬ r.ncomp < 0 := by omega
  unfold return_results
  simp only [sputil2_put_int_full, hneg, if_false]
  repeat (first | rfl | split)

/-- The return section on success: the engine did not fail, `p` holds the
`n` entries of `Perm` shifted to base 1, and `cp`, `cmember` are present
according to `nargout`, with `ncomp` and `n` entries. -/
theorem return_results_ok {D R : Type} (nargout : Nat) (C : cholmod_sparse)
    (cm : cholmod_common D R) (n : Nat) (r : EngineOut n)
    (h : (return_results nargout C cm n r).status = .ok) :
    0 ≤ r.ncomp ∧
      (return_results nargout C cm n r).p =
        some ((List.finRange n).map fun k => r.Perm k + 1) ∧
      ((return_results nargout C cm n r).cp.isSome = true ↔ 2 ≤ nargout) ∧
      ((return_results nargout C cm n r).cmember.isSome = true ↔ 3 ≤ nargout) ∧
      (∀ cp, (return_results nargout C cm n r).cp = some cp →
        (cp.length : Int) = r.ncomp ∧ r.ncomp ≤ n) ∧
      (∀ m, (return_results nargout C cm n r).cmember = some m → m.length = n) := by
  unfold return_results at h ⊢
  simp only [sputil2_put_int_full] at h ⊢
  by_cases hneg : r.ncomp < 0
  · simp [hneg, fail] at h
  · simp only [hneg, if_false] at h ⊢
    refine ⟨by omega, ?_⟩
    by_cases h1 : nargout > 1
    · simp only [h1, if_true] at h ⊢
      cases hcp : sputil2_put_int r.CParent r.ncomp 1 with
      | none => simp [hcp] at h
      | some cp =>
        have hlen := sputil2_put_int_some _ _ _ _ hcp
        simp only [hcp] at h ⊢
        by_cases h2 : nargout > 2
        · simp only [h2, if_true]
          refine ⟨trivial, by simp; omega, by simp; omega, ?_, ?_⟩
          · intro cp2 hcp2
            simp only [Option.some.injEq] at hcp2
            subst hcp2
            exact ⟨hlen.1, hlen.2.2⟩
          · intro m hm
            simp only [Option.some.injEq] at hm
            subst hm
            simp
        · simp only [h2, if_false]
          refine ⟨trivial, by simp; omega, by simp; omega, ?_, ?_⟩
          · intro cp2 hcp2
            simp only [Option.some.injEq] at hcp2
            subst hcp2
            exact ⟨hlen.1, hlen.2.2⟩
          · intro m hm
            simp at hm
    · simp only [h1, if_false]
      refine ⟨trivial, by simp; omega, by simp; omega, ?_, ?_⟩
      · intro cp2 hcp2
        simp at hcp2
      · intro m hm
        simp at hm

/-- A call either stops before the ordering, with no engine call and no
output, or is the return section applied to the one engine call, made with
the control parameters left by the `opts` section and with work arrays of as
many entries as the matrix handed over has rows. -/
theorem mexFunction_cases {D R : Type} (env : Env D R) (nargout : Nat)
    (pargin : List (mxArray D)) :
    ((mexFunction env nargout pargin).status ≠ .ok ∧
        (mexFunction env nargout pargin).calls = [] ∧
        (mexFunction env nargout pargin).p = none ∧
        (mexFunction env nargout pargin).cp = none ∧
        (mexFunction env nargout pargin).cmember = none) ∨
      ∃ (C : cholmod_sparse) (cm : cholmod_common D R),
        get_opts env env.start pargin = some cm ∧
        mexFunction env nargout pargin =
          return_results nargout C cm C.nrow
            (env.cholmod_l_nested_dissection C cm C.nrow) := by
  unfold mexFunction
  simp only
  split
  · left; simp [fail]
  · split
    · left; simp
    · rename_i cm hcm
      split
      · left; simp
      · split
        · left; simp [fail]
        · split
          · left; simp [fail]
          · split
            · left; simp [fail]
            · right
              unfold order
              split
              · exact ⟨_, _, hcm, rfl⟩
              · exact ⟨_, _, hcm, rfl⟩

/-- The `opts` section looks at the third argument only. -/
theorem get_opts_congr {D R : Type} (env : Env D R) (cm : cholmod_common D R)
    (a0 a1 b0 b1 : mxArray D) (rest : List (mxArray D)) :
    get_opts env cm (a0 :: a1 :: rest) = get_opts env cm (b0 :: b1 :: rest) := by
  unfold get_opts
  simp

/-! ## Lemmas on the engine -/

/-- Reading a list at all its indices gives the list back. -/
theorem map_getD_range (S : List Nat) :
    (List.range S.length).map (fun k => S.getD k 0) = S := by
  apply List.ext_getElem
  · simp
  · intro i h1 h2
    simp [List.getElem?_eq_getElem h2]

/-- A permutation of the local indices, read through `S`, is a permutation
of `S`. -/
theorem map_getD_perm (S l : List Nat) (h : l.Perm (List.range S.length)) :
    (l.map fun k => S.getD k 0).Perm S := by
  have h2 := List.Perm.map (fun k => S.getD k 0) h
  rw [map_getD_range] at h2
  exact h2

/-- One traversal keeps the vertices it was given. -/
theorem reach_perm (G : Graph) (fuel : Nat) (comp rest : List Nat) :
    ((reach G fuel comp rest).1 ++ (reach G fuel comp rest).2).Perm (comp ++ rest) := by
  induction fuel generalizing comp rest with
  | zero => simp [reach]
  | succ fuel ih =>
    simp only [reach]
    split
    · exact List.Perm.refl _
    · refine (ih _ _).trans ?_
      rw [List.append_assoc]
      exact List.Perm.append_left comp (List.filter_append_perm _ rest)

/-- One traversal leaves no more vertices than it was given. -/
theorem reach_length (G : Graph) (fuel : Nat) (comp rest : List Nat) :
    (reach G fuel comp rest).2.length ≤ rest.length := by
  induction fuel generalizing comp rest with
  | zero => simp [reach]
  | succ fuel ih =>
    simp only [reach]
    split
    · exact le_refl _
    · exact (ih _ _).trans (List.length_filter_le _ rest)

/-- The connected components partition the vertex list. -/
theorem connected_components_perm (G : Graph) (fuel : Nat) (S : List Nat)
    (h : S.length ≤ fuel) : (connected_components G fuel S).flatten.Perm S := by
  induction fuel generalizing S with
  | zero =>
    cases S with
    | nil => simp [connected_components]
    | cons v rest => simp at h
  | succ fuel ih =>
    cases S with
    | nil => simp [connected_components]
    | cons v rest =>
      simp only [connected_components, List.flatten_cons]
      have hlen := reach_length G rest.length [v] rest
      have hrec := ih (reach G rest.length [v] rest).2 (by simp at h; omega)
      exact (List.Perm.append_left _ hrec).trans (reach_perm G rest.length [v] rest)

/-- The leaf handling orders the vertices of `S`. -/
theorem leaf_order_perm {D : Type} (order_leaf : Graph → Mode → List Nat)
    (hleaf : leaf_contract order_leaf) (ctl : Control D) (mode : Mode) (G : Graph)
    (S : List Nat) : (leaf_order order_leaf ctl mode G S).Perm S := by
  unfold leaf_order
  split
  · exact map_getD_perm S _ (hleaf (induced G S) mode)
  · exact List.Perm.refl _

/-- Whatever `process` decides, short of a fault, covers the vertices of `S`
exactly: a leaf lists them, a fan-out or an accepted separator with its two
sides partitions them. -/
theorem process_covers {D : Type} [LinearOrderedRing D]
    (find_separator : Graph → OracleResult) (order_leaf : Graph → Mode → List Nat)
    (hleaf : leaf_contract order_leaf) (ctl : Control D) (mode : Mode) (G : Graph)
    (S : List Nat) :
    (∀ vertices, process find_separator order_leaf ctl mode G S = .leaf vertices →
        vertices.Perm S) ∧
      (∀ pieces, process find_separator order_leaf ctl mode G S = .fan_out pieces →
        pieces.flatten.Perm S) ∧
      (∀ sep a b, process find_separator order_leaf ctl mode G S = .accept sep a b →
        (sep ++ (a ++ b)).Perm S) := by
  have hl := leaf_order_perm order_leaf hleaf ctl mode G S
  have hc := connected_components_perm G S.length S (le_refl _)
  have hs : ∀ sep a b : List Nat, (sep ++ a ++ b).isPerm (List.range S.length) = true →
      ((sep.map fun k => S.getD k 0) ++ ((a.map fun k => S.getD k 0) ++
        (b.map fun k => S.getD k 0))).Perm S := by
    intro sep a b hperm
    have := map_getD_perm S _ (List.isPerm_iff.mp hperm)
    simpa [List.map_append] using this
  unfold process
  refine ⟨?_, ?_, ?_⟩
  · intro vertices h
    split at h
    · cases h; exact List.Perm.refl _
    · simp only at h
      split at h
      · cases h
      · split at h
        · cases h; exact hl
        · split at h
          · cases h
          · cases h; exact hl
          · split at h
            · cases h
            · split at h
              · cases h; exact hl
              · cases h
  · intro pieces h
    split at h
    · cases h
    · simp only at h
      split at h
      · cases h; exact hc
      · split at h
        · cases h
        · split at h
          · cases h
          · cases h
          · split at h
            · cases h
            · split at h
              · cases h
              · cases h
  · intro sep a b h
    split at h
    · cases h
    · simp only at h
      split at h
      · cases h
      · split at h
        · cases h
        · split at h
          · cases h
          · cases h
          · split at h
            · cases h
            · rename_i hperm
              split at h
              · cases h
              · cases h
                apply hs
                simpa using hperm

/-- A registered separator stays registered when a component is added. -/
theorem getElem?_append_separator (tracker : List Component) (k : Component) (q : Nat)
    (h : ∃ kq : Component, tracker[q]? = some kq ∧ kq.is_separator = true) :
    ∃ kq : Component, (tracker ++ [k])[q]? = some kq ∧ kq.is_separator = true := by
  obtain ⟨kq, hq, hs⟩ := h
  have hlt : q < tracker.length := by
    by_contra hge
    rw [List.getElem?_eq_none (by omega)] at hq
    cases hq
  exact ⟨kq, by rw [List.getElem?_append_left hlt]; exact hq, hs⟩

/-- Registering a component below a registered separator, or as a root,
keeps the tree valid. -/
theorem valid_tree_register (tracker : List Component) (parent : Option Nat)
    (is_separator : Bool) (vertices : List Nat) (hv : valid_tree tracker)
    (hp : ∀ q, parent = some q →
      ∃ kq : Component, tracker[q]? = some kq ∧ kq.is_separator = true) :
    valid_tree (register tracker parent is_separator vertices).2 := by
  intro c k hc q hq
  simp only [register] at hc
  by_cases hlt : c < tracker.length
  · rw [List.getElem?_append_left hlt] at hc
    obtain ⟨h1, h2⟩ := hv c k hc q hq
    exact ⟨h1, getElem?_append_separator tracker _ q h2⟩
  · by_cases heq : c = tracker.length
    · subst heq
      simp only [List.getElem?_concat_length, Option.some.injEq] at hc
      subst hc
      have h2 := hp q hq
      refine ⟨?_, getElem?_append_separator tracker _ q h2⟩
      obtain ⟨kq, hkq, -⟩ := h2
      by_contra hge
      rw [List.getElem?_eq_none (by omega)] at hkq
      cases hkq
    · rw [List.getElem?_eq_none (by simp; omega)] at hc
      cases hc

/-- Pending subgraphs stay valid when a component is added. -/
theorem valid_pending_register (tracker : List Component) (k : Component)
    (pending : List (List Nat × Option Nat)) (h : valid_pending tracker pending) :
    valid_pending (tracker ++ [k]) pending := by
  intro item hi q hq
  exact getElem?_append_separator tracker k q (h item hi q hq)

/-- The vertices of a fan-out are those of its pieces. -/
theorem flatMap_pieces (pieces : List (List Nat)) (parent : Option Nat) :
    ((pieces.map fun K => (K, parent)).flatMap fun item => item.1) = pieces.flatten := by
  induction pieces with
  | nil => rfl
  | cons K pieces ih => simp [List.flatMap_cons, ih]

/-- The scheduler keeps the tree valid, and the components it ends with hold
exactly the vertices registered before together with those still pending. -/
theorem schedule_inv {D : Type} [LinearOrderedRing D]
    (find_separator : Graph → OracleResult) (order_leaf : Graph → Mode → List Nat)
    (hleaf : leaf_contract order_leaf) (ctl : Control D) (mode : Mode) (G : Graph)
    (fuel : Nat) :
    ∀ (pending : List (List Nat × Option Nat)) (tracker result : List Component),
      valid_tree tracker → valid_pending tracker pending →
      schedule find_separator order_leaf ctl mode G fuel pending tracker = some result →
      valid_tree result ∧
        (result.flatMap fun k => k.vertices).Perm
          ((tracker.flatMap fun k => k.vertices) ++ pending.flatMap fun item => item.1) := by
  induction fuel with
  | zero =>
    intro pending tracker result hv hp h
    cases pending with
    | nil =>
      simp only [schedule, Option.some.injEq] at h
      subst h
      exact ⟨hv, by simp⟩
    | cons item pending => simp [schedule] at h
  | succ fuel ih =>
    intro pending tracker result hv hp h
    cases pending with
    | nil =>
      simp only [schedule, Option.some.injEq] at h
      subst h
      exact ⟨hv, by simp⟩
    | cons item pending =>
      obtain ⟨S, parent⟩ := item
      have hcov := process_covers find_separator order_leaf hleaf ctl mode G S
      have hparent : ∀ q, parent = some q →
          ∃ kq : Component, tracker[q]? = some kq ∧ kq.is_separator = true :=
        fun q hq => hp (S, parent) (List.mem_cons_self _ _) q hq
      have hrest : valid_pending tracker pending :=
        fun item hi => hp item (List.mem_cons_of_mem _ hi)
      simp only [schedule] at h
      cases hproc : process find_separator order_leaf ctl mode G S with
      | fatal => simp [hproc] at h
      | leaf vertices =>
        simp only [hproc] at h
        have hvs := hcov.1 vertices hproc
        obtain ⟨h1, h2⟩ := ih pending _ result
          (valid_tree_register tracker parent false vertices hv hparent)
          (valid_pending_register tracker _ pending hrest) h
        refine ⟨h1, h2.trans ?_⟩
        simp only [register, List.flatMap_append, List.flatMap_cons, List.flatMap_nil,
          List.append_nil, List.append_assoc]
        exact List.Perm.append_left _ (List.Perm.append_right _ hvs)
      | fan_out pieces =>
        simp only [hproc] at h
        have hps := hcov.2.1 pieces hproc
        have hp2 : valid_pending tracker (pieces.map (fun K => (K, parent)) ++ pending) := by
          intro item hi q hq
          rcases List.mem_append.mp hi with hi | hi
          · obtain ⟨K, -, rfl⟩ := List.mem_map.mp hi
            exact hparent q hq
          · exact hrest item hi q hq
        obtain ⟨h1, h2⟩ := ih _ tracker result hv hp2 h
        refine ⟨h1, h2.trans ?_⟩
        simp only [List.flatMap_append, List.flatMap_cons, flatMap_pieces]
        exact List.Perm.append_left _ (List.Perm.append_right _ hps)
      | accept sep a b =>
        simp only [hproc] at h
        have hsab := hcov.2.2 sep a b hproc
        have hp2 : valid_pending (register tracker parent true sep).2
            ((a, some (register tracker parent true sep).1) ::
              (b, some (register tracker parent true sep).1) :: pending) := by
          intro item hi q hq
          have hnew : ∃ kq : Component,
              (register tracker parent true sep).2[(register tracker parent true sep).1]? =
                some kq ∧ kq.is_separator = true :=
            ⟨⟨parent, true, sep⟩, by simp [register], rfl⟩
          rcases List.mem_cons.mp hi with hi | hi
          · subst hi
            simp only [Option.some.injEq] at hq
            subst hq
            exact hnew
          · rcases List.mem_cons.mp hi with hi | hi
            · subst hi
              simp only [Option.some.injEq] at hq
              subst hq
              exact hnew
            · exact valid_pending_register tracker _ pending hrest item hi q hq
        obtain ⟨h1, h2⟩ := ih _ _ result
          (valid_tree_register tracker parent true sep hv hparent) hp2 h
        refine ⟨h1, h2.trans ?_⟩
        simp only [register, List.flatMap_append, List.flatMap_cons, List.flatMap_nil,
          List.append_nil, List.append_assoc]
        refine List.Perm.append_left _ ?_
        have e : sep ++ (a ++ (b ++ pending.flatMap fun item => item.1)) =
            (sep ++ (a ++ b)) ++ pending.flatMap fun item => item.1 := by
          simp [List.append_assoc]
        rw [e]
        exact List.Perm.append_right _ hsab

/-- Putting a block in front of what lies below `q` adds the block to what
lies below the components of id less than `c`, for `q < c`. -/
theorem flatMap_update_perm (f : Nat → List Nat) (b : List Nat) (q c : Nat) (h : q < c) :
    ((List.range c).flatMap (Function.update f q (b ++ f q))).Perm
      (b ++ (List.range c).flatMap f) := by
  induction c with
  | zero => omega
  | succ c ih =>
    rw [List.range_succ, List.flatMap_append, List.flatMap_append]
    simp only [List.flatMap_cons, List.flatMap_nil, List.append_nil]
    by_cases hq : q = c
    · subst hq
      have hsame : (List.range q).flatMap (Function.update f q (b ++ f q)) =
          (List.range q).flatMap f := by
        apply List.flatMap_congr
        intro x hx
        have hne : x ≠ q := by
          have := List.mem_range.mp hx
          omega
        simp [Function.update, hne]
      rw [hsame]
      simp only [Function.update_same]
      rw [List.perm_iff_count]
      intro x
      simp only [List.count_append]
      omega
    · have hlt : q < c := by omega
      have hne : c ≠ q := fun e => hq e.symm
      simp only [Function.update, hne, dite_false]
      have := ih hlt
      rw [List.perm_iff_count] at this ⊢
      intro x
      have hx := this x
      simp only [Function.update, List.count_append] at hx ⊢
      omega

/-- The bottom-up walk emits every vertex of every component once, if it
starts from a state that holds the vertices of the components already
walked and nothing below a leaf. -/
theorem compose_from_perm (tracker : List Component) (hv : valid_tree tracker) (c : Nat) :
    ∀ w : Walk, c ≤ tracker.length →
      (∀ (q : Nat) (k : Component), tracker[q]? = some k → k.is_separator = false →
        w.below q = []) →
      ((List.range c).flatMap w.below ++ w.top).Perm
        ((tracker.drop c).flatMap fun k => k.vertices) →
      (compose_from tracker c w).top.Perm (tracker.flatMap fun k => k.vertices) := by
  induction c with
  | zero =>
    intro w _ _ h
    simpa [compose_from] using h
  | succ c ih =>
    intro w hc hleafs h
    have hlt : c < tracker.length := by omega
    simp only [compose_from]
    have hk : tracker[c]? = some tracker[c] := List.getElem?_eq_getElem hlt
    have hdrop : tracker.drop c = tracker[c] :: tracker.drop (c + 1) :=
      List.drop_eq_getElem_cons hlt
    rw [List.range_succ, List.flatMap_append] at h
    simp only [List.flatMap_cons, List.flatMap_nil, List.append_nil] at h
    have hblock : ∀ x, List.count x
          (if tracker[c].is_separator then w.below c ++ tracker[c].vertices
            else tracker[c].vertices) =
        List.count x (w.below c) + List.count x tracker[c].vertices := by
      intro x
      by_cases hs : tracker[c].is_separator = true
      · simp [hs, List.count_append]
      · have hs2 : tracker[c].is_separator = false := by simpa using hs
        simp [hs2, hleafs c tracker[c] hk hs2]
    apply ih (compose_step tracker w c) (by omega)
    · intro q k hq hs
      simp only [compose_step, hk]
      cases hpar : tracker[c].parent with
      | none => exact hleafs q k hq hs
      | some q2 =>
        simp only
        by_cases hqq : q = q2
        · subst hqq
          obtain ⟨-, kq, hkq, hsep⟩ := hv c tracker[c] hk q hpar
          rw [hq] at hkq
          cases hkq
          rw [hs] at hsep
          cases hsep
        · simp only [Function.update, hqq, dite_false]
          exact hleafs q k hq hs
    · rw [hdrop, List.flatMap_cons]
      simp only [compose_step, hk]
      rw [List.perm_iff_count] at h ⊢
      intro x
      have hx := h x
      have hb := hblock x
      simp only [List.count_append] at hx
      cases hpar : tracker[c].parent with
      | none =>
        simp only [List.count_append, hb]
        omega
      | some q =>
        obtain ⟨hqc, -⟩ := hv c tracker[c] hk q hpar
        have hu := flatMap_update_perm w.below
          (if tracker[c].is_separator then w.below c ++ tracker[c].vertices
            else tracker[c].vertices) q c hqc
        rw [List.perm_iff_count] at hu
        have hux := hu x
        simp only [List.count_append] at hux ⊢
        rw [hux, hb]
        omega

/-- The composer emits every vertex of every component exactly once. -/
theorem compose_perm (tracker : List Component) (hv : valid_tree tracker) :
    (compose tracker).Perm (tracker.flatMap fun k => k.vertices) := by
  unfold compose
  apply compose_from_perm tracker hv tracker.length _ (le_refl _)
  · intro q k _ _
    rfl
  · simp

/-- The graph of symmetric and of row mode has one vertex for each row. -/
theorem build_graph_n (A : cholmod_sparse) (mode : Mode) (G : Graph)
    (hmode : mode ≠ .Column) (h : build_graph A mode = some G) : G.n = A.nrow := by
  unfold build_graph at h
  cases mode with
  | Symmetric =>
    simp only at h
    split at h
    · cases h
    · cases h; rfl
  | Row => cases h; rfl
  | Column => exact absurd rfl hmode

/-- The array of a list of `n` entries holds the entries of the list. -/
theorem ofFn_getD (l : List Nat) (n : Nat) (h : l.length = n) :
    List.ofFn (fun i : Fin n => ((l.getD i 0 : Nat) : Int)) = l.map fun (v : Nat) => (v : Int) := by
  subst h
  apply List.ext_getElem
  · simp
  · intro i h1 h2
    simp only [List.length_map] at h2
    simp [List.getElem?_eq_getElem h2]

/-- The engine of the specification: whenever it does not fail, `Perm` holds
every vertex of `0..n-1` exactly once. -/
theorem nested_dissection_perm {D R : Type} [LinearOrderedRing D]
    (find_separator : Graph → OracleResult) (order_leaf : Graph → Mode → List Nat)
    (hleaf : leaf_contract order_leaf) (fuel : Nat) (C : cholmod_sparse)
    (cm : cholmod_common D R)
    (h : 0 ≤ (nested_dissection find_separator order_leaf fuel C cm C.nrow).ncomp) :
    (List.ofFn (nested_dissection find_separator order_leaf fuel C cm C.nrow).Perm).Perm
      ((List.range C.nrow).map fun (v : Nat) => (v : Int)) := by
  unfold nested_dissection at h ⊢
  simp only at h ⊢
  have hmode : (if C.stype = 0 then Mode.Row else Mode.Symmetric) ≠ Mode.Column := by
    split <;> simp
  cases hG : build_graph C (if C.stype = 0 then Mode.Row else Mode.Symmetric) with
  | none => simp [hG] at h
  | some G =>
    have hn := build_graph_n C _ G hmode hG
    simp only [hG] at h ⊢
    cases hs : schedule find_separator order_leaf (control_of cm)
        (if C.stype = 0 then Mode.Row else Mode.Symmetric) G fuel
        [(List.range G.n, none)] [] with
    | none => simp [hs] at h
    | some tracker =>
      simp only [hs]
      obtain ⟨hv, hp⟩ := schedule_inv find_separator order_leaf hleaf (control_of cm) _ G fuel
        [(List.range G.n, none)] [] tracker
        (by intro c k hc; simp at hc)
        (by intro item hi q hq; simp at hi; subst hi; simp at hq) hs
      have hperm : (compose tracker).Perm (List.range C.nrow) := by
        refine (compose_perm tracker hv).trans (hp.trans ?_)
        simp [hn]
      rw [ofFn_getD (compose tracker) C.nrow (by simpa using hperm.length_eq)]
      exact List.Perm.map _ hperm

/-- The oracle that always answers `PartitionFailed` (§8, scenario 4) meets
the contract. -/
theorem partition_failed_oracle_contract :
    oracle_contract (fun _ => OracleResult.PartitionFailed) := by
  intro g
  exact ⟨by simp, by intro sep a b h; cases h⟩

/-- A traversal keeps the vertices it starts from. -/
theorem reach_ne_nil (G : Graph) (fuel : Nat) (comp rest : List Nat) (h : comp ≠ []) :
    (reach G fuel comp rest).1 ≠ [] := by
  induction fuel generalizing comp rest with
  | zero => simpa [reach] using h
  | succ fuel ih =>
    simp only [reach]
    split
    · exact h
    · exact ih _ _ (by simp [h])

/-- No connected component is empty. -/
theorem connected_components_ne_nil (G : Graph) (fuel : Nat) (S : List Nat) :
    ∀ K ∈ connected_components G fuel S, K ≠ [] := by
  induction fuel generalizing S with
  | zero => simp [connected_components]
  | succ fuel ih =>
    cases S with
    | nil => simp [connected_components]
    | cons v rest =>
      intro K hK
      simp only [connected_components, List.mem_cons] at hK
      rcases hK with rfl | hK
      · exact reach_ne_nil G _ [v] rest (by simp)
      · exact ih _ K hK

/-- Non-empty pieces need, together, as many steps as twice their vertices
less their number. -/
theorem steps_pieces (pieces : List (List Nat)) (parent : Option Nat)
    (h : ∀ K ∈ pieces, K ≠ []) :
    pending_steps (pieces.map fun K => (K, parent)) + pieces.length =
      2 * pieces.flatten.length := by
  induction pieces with
  | nil => simp [pending_steps]
  | cons K pieces ih =>
    have hK : K.length ≠ 0 := by
      have := h K (List.mem_cons_self _ _)
      simpa [List.length_eq_zero] using this
    have ih2 := ih fun K2 hK2 => h K2 (List.mem_cons_of_mem _ hK2)
    simp only [pending_steps, List.map_cons, List.map_map, List.sum_cons, List.length_cons,
      List.flatten_cons, List.length_append, steps, hK, if_false] at ih2 ⊢
    omega

/-- With an oracle that meets its contract `process` never reports a fault,
a fan-out has at least two non-empty pieces covering `S`, and an accepted
separator leaves sides that need fewer steps than `S`. -/
theorem process_progress {D : Type} [LinearOrderedRing D]
    (find_separator : Graph → OracleResult) (order_leaf : Graph → Mode → List Nat)
    (horacle : oracle_contract find_separator) (ctl : Control D) (mode : Mode) (G : Graph)
    (S : List Nat) :
    process find_separator order_leaf ctl mode G S ≠ .fatal ∧
      (∀ pieces, process find_separator order_leaf ctl mode G S = .fan_out pieces →
        pending_steps (pieces.map fun K => (K, (none : Option Nat))) + 1 ≤
          steps S.length) ∧
      (∀ sep a b, process find_separator order_leaf ctl mode G S = .accept sep a b →
        steps a.length + steps b.length + 1 ≤ steps S.length) := by
  have hc := connected_components_perm G S.length S (le_refl _)
  have hne := connected_components_ne_nil G S.length S
  have hst := steps_pieces (connected_components G S.length S) none hne
  have horc := horacle (induced G S)
  unfold process
  refine ⟨?_, ?_, ?_⟩
  · split
    · simp
    · simp only
      split
      · simp
      · split
        · simp
        · split
          · rename_i hf
            exact absurd hf horc.1
          · simp
          · rename_i sep a b hsplit
            have hperm := (horc.2 sep a b hsplit).1
            have : (sep ++ a ++ b).isPerm (List.range S.length) = true :=
              List.isPerm_iff.mpr (by simpa [induced] using hperm)
            simp only [this, Bool.not_true, Bool.false_eq_true, if_false]
            split <;> simp
  · intro pieces h
    split at h
    · cases h
    · rename_i hlen
      simp only at h
      split at h
      · rename_i hsplit
        cases h
        simp only [Bool.and_eq_true, decide_eq_true_eq] at hsplit
        have hl := hc.length_eq
        have hS : S.length ≠ 0 := by omega
        simp only [steps, hS, if_false]
        omega
      · split at h
        · cases h
        · split at h
          · cases h
          · cases h
          · split at h
            · cases h
            · split at h
              · cases h
              · cases h
  · intro sep a b h
    split at h
    · cases h
    · rename_i hlen
      simp only at h
      split at h
      · cases h
      · split at h
        · cases h
        · split at h
          · cases h
          · cases h
          · rename_i sep0 a0 b0 hsplit
            split at h
            · cases h
            · split at h
              · cases h
              · cases h
                obtain ⟨hperm, hproper⟩ := horc.2 sep0 a0 b0 hsplit
                have hl := hperm.length_eq
                simp only [induced, List.length_append, List.length_range] at hl
                have hproper2 : sep0.length ≠ 0 ∨ (a0.length ≠ 0 ∧ b0.length ≠ 0) := by
                  simpa [List.length_eq_zero] using hproper
                simp only [steps, List.length_map]
                split_ifs <;> omega

/-- Termination: with an oracle that meets its contract, the scheduler
empties its stack whenever the fuel covers the steps of the pending
subgraphs. -/
theorem schedule_terminates {D : Type} [LinearOrderedRing D]
    (find_separator : Graph → OracleResult) (order_leaf : Graph → Mode → List Nat)
    (horacle : oracle_contract find_separator) (ctl : Control D) (mode : Mode) (G : Graph)
    (fuel : Nat) :
    ∀ (pending : List (List Nat × Option Nat)) (tracker : List Component),
      pending_steps pending ≤ fuel →
      (schedule find_separator order_leaf ctl mode G fuel pending tracker).isSome = true := by
  induction fuel with
  | zero =>
    intro pending tracker h
    cases pending with
    | nil => simp [schedule]
    | cons item pending =>
      simp only [pending_steps, List.map_cons, List.sum_cons, steps] at h
      split_ifs at h <;> omega
  | succ fuel ih =>
    intro pending tracker h
    cases pending with
    | nil => simp [schedule]
    | cons item pending =>
      obtain ⟨S, parent⟩ := item
      obtain ⟨hnf, hfan, hacc⟩ :=
        process_progress find_separator order_leaf horacle ctl mode G S
      have hpos : 1 ≤ steps S.length := by
        simp only [steps]
        split_ifs <;> omega
      simp only [pending_steps, List.map_cons, List.sum_cons] at h
      simp only [schedule]
      cases hproc : process find_separator order_leaf ctl mode G S with
      | fatal => exact absurd hproc hnf
      | leaf vertices =>
        simp only
        apply ih
        simp only [pending_steps]
        omega
      | fan_out pieces =>
        simp only
        apply ih
        have h1 := hfan pieces hproc
        have h2 : pending_steps (pieces.map fun K => (K, parent)) =
            pending_steps (pieces.map fun K => (K, (none : Option Nat))) := by
          simp only [pending_steps, List.map_map]
          rfl
        simp only [pending_steps, List.map_append, List.sum_append] at h1 h2 ⊢
        omega
      | accept sep a b =>
        simp only
        apply ih
        have h1 := hacc sep a b hproc
        simp only [pending_steps, List.map_cons, List.sum_cons]
        omega

/-- Termination of the engine: with an oracle that meets its contract and
fuel for `2 n + 1` steps, the engine of the specification does not fail on a
matrix it can build a graph from. -/
theorem nested_dissection_returns {D R : Type} [LinearOrderedRing D]
    (find_separator : Graph → OracleResult) (order_leaf : Graph → Mode → List Nat)
    (horacle : oracle_contract find_separator) (fuel : Nat) (C : cholmod_sparse)
    (cm : cholmod_common D R) (n : Nat)
    (hfuel : 2 * C.nrow + 1 ≤ fuel) (hshape : C.stype = 0 ∨ C.nrow = C.ncol) :
    0 ≤ (nested_dissection find_separator order_leaf fuel C cm n).ncomp := by
  unfold nested_dissection
  simp only
  have hmode : (if C.stype = 0 then Mode.Row else Mode.Symmetric) ≠ Mode.Column := by
    split <;> simp
  cases hG : build_graph C (if C.stype = 0 then Mode.Row else Mode.Symmetric) with
  | none =>
    exfalso
    unfold build_graph at hG
    rcases hshape with h | h
    · simp [h] at hG
    · split at hG
      · simp [h] at hG
      · cases hG
      · cases hG
  | some G =>
    have hn := build_graph_n C _ G hmode hG
    have hterm := schedule_terminates find_separator order_leaf horacle (control_of cm)
      (if C.stype = 0 then Mode.Row else Mode.Symmetric) G fuel [(List.range G.n, none)] []
      (by
        simp only [pending_steps, List.map_cons, List.map_nil, List.sum_cons, List.sum_nil,
          List.length_range, steps, hn]
        split_ifs <;> omega)
    cases hs : schedule find_separator order_leaf (control_of cm)
        (if C.stype = 0 then Mode.Row else Mode.Symmetric) G fuel
        [(List.range G.n, none)] [] with
    | none => simp [hs] at hterm
    | some tracker => simp [hs]

/-! ## The claims -/

/-- C1: for an accepted argument list (at most three outputs, one to three
inputs, `opts` readable, `A` accepted by `sputil2_get_sparse_pattern`) the
call stops with `nesdis: A must be square` exactly when the mode is symmetric
(no mode argument, or a mode starting with `s` or `S`) and `A` is not square;
a mode starting with `r`, `R`, `c` or `C` never stops with that message. -/
theorem square_error_iff_symmetric_nonsquare {D R : Type} (env : Env D R)
    (hLEN : 2 ≤ env.LEN) (nargout : Nat) (pargin : List (mxArray D))
    (cm : cholmod_common D R) (a0 : mxArray D) (A0 : cholmod_sparse)
    (hout : nargout ≤ 3) (hin1 : 1 ≤ pargin.length) (hin3 : pargin.length ≤ 3)
    (hopts : get_opts env env.start pargin = some cm)
    (h0 : pargin[0]? = some a0)
    (hpat : env.sputil2_get_sparse_pattern a0 = .ok A0) :
    ((mexFunction env nargout pargin).status = .error "nesdis: A must be square" ↔
      ((pargin.length = 1 ∨
          ∃ c s, pargin[1]? = some (.char (c :: s)) ∧ (c = 's'.toNat ∨ c = 'S'.toNat)) ∧
        A0.nrow ≠ A0.ncol)) ∧
    (∀ c s, pargin[1]? = some (.char (c :: s)) →
      (c = 'r'.toNat ∨ c = 'R'.toNat ∨ c = 'c'.toNat ∨ c = 'C'.toNat) →
      (mexFunction env nargout pargin).status ≠ .error "nesdis: A must be square") := by
  rw [mexFunction_accepted env nargout pargin cm a0 A0 hout hin1 hin3 hopts h0 hpat]
  have hord : ∀ A tr, (order env nargout A tr cm).status ≠
      .error "nesdis: A must be square" :=
    fun A tr => order_status_ne env nargout A tr cm _ (by decide)
  match pargin, hin1 with
  | [a], _ =>
    simp only [get_mode_one]
    by_cases hsq : A0.nrow = A0.ncol
    · simp [hsq, hord]
    · simp [hsq, fail]
  | a :: b :: rest, _ =>
    rw [get_mode_cons_cons env hLEN]
    cases b with
    | sparse nrow ncol cols => simp [fail, first_character]
    | full x => simp [fail, first_character]
    | char s =>
      cases s with
      | nil => simp [fail, first_character]
      | cons c s =>
        simp only [first_character, Char.reduceToNat, List.getElem?_cons_succ, List.getElem?_cons_zero,
          Option.some.injEq, mxArray.char.injEq, List.cons.injEq]
        by_cases h1 : c = 114 ∨ c = 82
        · simp only [h1, if_true]
          refine ⟨?_, ?_⟩
          · simp only [ne_eq, not_true_eq_false, false_and, if_false, hord, false_iff]
            rintro ⟨h | ⟨c2, s2, ⟨rfl, -⟩, h⟩, -⟩
            · simp at h
            · omega
          · intro _ _ _ _
            simp [hord]
        · simp only [h1, if_false]
          by_cases h2 : c = 99 ∨ c = 67
          · simp only [h2, if_true]
            refine ⟨?_, ?_⟩
            · simp only [ne_eq, not_true_eq_false, false_and, if_false, hord, false_iff]
              rintro ⟨h | ⟨c2, s2, ⟨rfl, -⟩, h⟩, -⟩
              · simp at h
              · omega
            · intro _ _ _ _
              simp [hord]
          · simp only [h2, if_false]
            by_cases h3 : c = 115 ∨ c = 83
            · simp only [h3, if_true]
              refine ⟨?_, ?_⟩
              · by_cases hsq : A0.nrow = A0.ncol
                · simp [hsq, hord]
                · simp only [ne_eq, hsq, not_false_eq_true, and_true, fail]
                  simp only [show ¬ ((-1 : Int) = 0) by decide, not_false_eq_true, if_true,
                    true_iff]
                  exact Or.inr ⟨c, s, ⟨rfl, rfl⟩, h3⟩
              · rintro c2 s2 ⟨rfl, -⟩ h
                omega
            · simp only [h3, if_false]
              refine ⟨?_, ?_⟩
              · simp only [fail, Status.error.injEq]
                constructor
                · intro h
                  exact absurd h (by decide)
                · rintro ⟨h | ⟨c2, s2, ⟨rfl, -⟩, h⟩, -⟩
                  · simp at h
                  · exact absurd h h3
              · intro _ _ _ _
                simp [fail]

/-- C1 at a 2-by-3 matrix: `nesdis (A)` stops with the shape error. -/
theorem square_error_iff_symmetric_nonsquare_witness :
    (mexFunction (sampleEnv 1) 3 [.sparse 2 3 [[0], [1], [0, 1]]]).status =
      .error "nesdis: A must be square" :=
  ((square_error_iff_symmetric_nonsquare (sampleEnv 1) (by decide) 3
    [.sparse 2 3 [[0], [1], [0, 1]]] (sampleEnv 1).start (.sparse 2 3 [[0], [1], [0, 1]])
    { nrow := 2, ncol := 3, stype := 0, cols := [[0], [1], [0, 1]] }
    (by decide) (by decide) (by decide) (by decide) (by decide) rfl).1).2
    ⟨Or.inl (by decide), by decide⟩

/-- C2, as the gateway behaves: in a call whose argument list is otherwise
accepted, a mode argument that is not a char array, is empty, or whose first
character is none of `r R c C s S` stops the call with
`nesdis: unrecognized mode`, before any output and any engine call. -/
theorem unrecognized_mode_rejected {D R : Type} (env : Env D R) (nargout : Nat)
    (a0 a1 : mxArray D) (rest : List (mxArray D)) (cm : cholmod_common D R)
    (A0 : cholmod_sparse)
    (hout : nargout ≤ 3) (hin3 : rest.length ≤ 1)
    (hopts : get_opts env env.start (a0 :: a1 :: rest) = some cm)
    (hpat : env.sputil2_get_sparse_pattern a0 = .ok A0)
    (hmode : ∀ c s, a1 = .char (c :: s) →
      c ∉ ['r'.toNat, 'R'.toNat, 'c'.toNat, 'C'.toNat, 's'.toNat, 'S'.toNat]) :
    (mexFunction env nargout (a0 :: a1 :: rest)).status =
        .error "nesdis: unrecognized mode" ∧
      (mexFunction env nargout (a0 :: a1 :: rest)).calls = [] ∧
      (mexFunction env nargout (a0 :: a1 :: rest)).p = none ∧
      (mexFunction env nargout (a0 :: a1 :: rest)).cp = none ∧
      (mexFunction env nargout (a0 :: a1 :: rest)).cmember = none := by
  have hmodeErr : get_mode env (a0 :: a1 :: rest) = .error "nesdis: unrecognized mode" := by
    have hlen : (a0 :: a1 :: rest).length > 1 := by simp
    unfold get_mode
    simp only [hlen, if_true, List.getElem?_cons_succ, List.getElem?_cons_zero]
    have key : tolower ((if mxIsChar a1 then mxGetString a1 env.LEN else []).headD 0) ≠ 114 ∧
        tolower ((if mxIsChar a1 then mxGetString a1 env.LEN else []).headD 0) ≠ 99 ∧
        tolower ((if mxIsChar a1 then mxGetString a1 env.LEN else []).headD 0) ≠ 115 := by
      cases a1 with
      | sparse nrow ncol cols => simp [mxIsChar, tolower_zero]
      | full x => simp [mxIsChar, tolower_zero]
      | char s =>
        cases s with
        | nil =>
          simp only [mxIsChar, if_true, mxGetString_head_nil, tolower_zero]
          simp
        | cons c s =>
          have hc := hmode c s rfl
          simp only [Char.reduceToNat, List.mem_cons, List.mem_singleton, List.mem_nil_iff,
            or_false, not_or] at hc
          by_cases hL : 2 ≤ env.LEN
          · simp only [mxIsChar, if_true, mxGetString_head c s env.LEN hL]
            have h1 := tolower_eq_r c
            have h2 := tolower_eq_c c
            have h3 := tolower_eq_s c
            simp only [Char.reduceToNat] at h1 h2 h3
            omega
          · have hL2 : env.LEN = 0 ∨ env.LEN = 1 := by omega
            rcases hL2 with hL2 | hL2 <;> simp [mxIsChar, mxGetString, hL2, tolower_zero]
    simp only [Char.reduceToNat, key.1, key.2.1, key.2.2, if_false]
  have hin1 : 1 ≤ (a0 :: a1 :: rest).length := by simp
  have hin3 : (a0 :: a1 :: rest).length ≤ 3 := by simp; omega
  rw [mexFunction_accepted env nargout (a0 :: a1 :: rest) cm a0 A0 hout hin1 hin3 hopts
    (by simp) hpat, hmodeErr]
  simp [fail]

/-- C2 at the mode `'xyz'` on the 1-by-1 matrix. -/
theorem unrecognized_mode_rejected_witness :
    (mexFunction (sampleEnv 1) 1 [.sparse 1 1 [[0]], .char (chars "xyz")]).status =
      .error "nesdis: unrecognized mode" :=
  (unrecognized_mode_rejected (sampleEnv 1) 1 (.sparse 1 1 [[0]]) (.char (chars "xyz")) []
    (sampleEnv 1).start { nrow := 1, ncol := 1, stype := 0, cols := [[0]] }
    (by decide) (by decide) (by decide) rfl
    (by intro c s h; cases h; decide)).1

/-- C2 fails as stated: the mode `'rubbish'` is none of the selectors `'sym'`,
`'row'`, `'col'` (nor `'symmetric'`, `'column'`), and yet `nesdis (A, 'rubbish')`
is not rejected: it orders the 1-by-1 matrix `A` in row mode. -/
theorem unrecognized_mode_counterexample :
    ¬ (chars "rubbish" ∉
          [chars "sym", chars "row", chars "col", chars "symmetric", chars "column"] →
        (mexFunction (sampleEnv 1) 1 [.sparse 1 1 [[0]], .char (chars "rubbish")]).status =
            .error "nesdis: unrecognized mode" ∧
          (mexFunction (sampleEnv 1) 1 [.sparse 1 1 [[0]], .char (chars "rubbish")]).calls =
            []) := by
  decide

/-- C7: `nesdis (A)` and `nesdis (A, 'sym')` give the same outcome, engine
call included; both select `stype = -1` without transpose, whatever `opts`
follows `'sym'`; and `nesdis (A, 'sym', opts)` is the call `nesdis (A)` made
with the control parameters that `opts` sets. -/
theorem absent_mode_same_as_sym {D R : Type} (env : Env D R) (hLEN : 2 ≤ env.LEN)
    (nargout : Nat) (a0 : mxArray D) :
    mexFunction env nargout [a0] =
        mexFunction env nargout [a0, .char ['s'.toNat, 'y'.toNat, 'm'.toNat]] ∧
      get_mode env [a0] = .ok (-1, false) ∧
      (∀ opts : mxArray D,
        get_mode env [a0, .char ['s'.toNat, 'y'.toNat, 'm'.toNat], opts] = .ok (-1, false)) ∧
      (∀ (opts : mxArray D) (cm : cholmod_common D R),
        get_opts env env.start [a0, .char ['s'.toNat, 'y'.toNat, 'm'.toNat], opts] = some cm →
        mexFunction env nargout [a0, .char ['s'.toNat, 'y'.toNat, 'm'.toNat], opts] =
          mexFunction { env with start := cm } nargout [a0]) := by
  have hsym : ∀ rest : List (mxArray D),
      get_mode env (a0 :: .char ['s'.toNat, 'y'.toNat, 'm'.toNat] :: rest) =
        .ok (-1, false) := by
    intro rest
    rw [get_mode_cons_cons env hLEN]
    simp [first_character]
  refine ⟨?_, get_mode_one env a0, fun opts => hsym [opts], ?_⟩
  · unfold mexFunction
    rw [hsym [], get_mode_one]
    simp [get_opts]
  · intro opts cm hopts
    unfold mexFunction
    rw [hsym [opts], get_mode_one, hopts]
    simp [get_opts, order]

/-- C7 at a 2-by-2 matrix with two outputs. -/
theorem absent_mode_same_as_sym_witness :
    mexFunction (sampleEnv 1) 2 [.sparse 2 2 [[0, 1], [1]]] =
      mexFunction (sampleEnv 1) 2 [.sparse 2 2 [[0, 1], [1]], .char (chars "sym")] :=
  (absent_mode_same_as_sym (sampleEnv 1) (by decide) 2 (.sparse 2 2 [[0, 1], [1]])).1

/-- C10: the first character of the mode argument decides, whatever follows
it: `r`/`R` gives `(stype, transpose) = (0, FALSE)`, `c`/`C` gives `(0, TRUE)`,
`s`/`S` gives `(-1, FALSE)`; any other mode argument (not a char array, empty,
another first character) gives `nesdis: unrecognized mode`.  For an accepted
argument list the call then does what the selection says: row and column mode
go to the ordering without a shape check, symmetric mode checks the shape
first, and a rejected mode stops the call with that message. -/
theorem mode_decided_by_first_character {D R : Type} (env : Env D R)
    (hLEN : 2 ≤ env.LEN) (nargout : Nat) (a0 a1 : mxArray D) (rest : List (mxArray D))
    (cm : cholmod_common D R) (A0 : cholmod_sparse)
    (hout : nargout ≤ 3) (hin3 : rest.length ≤ 1)
    (hopts : get_opts env env.start (a0 :: a1 :: rest) = some cm)
    (hpat : env.sputil2_get_sparse_pattern a0 = .ok A0) :
    get_mode env (a0 :: a1 :: rest) =
        (match first_character a1 with
        | some c =>
          if c = 'r'.toNat ∨ c = 'R'.toNat then .ok (0, false)
          else if c = 'c'.toNat ∨ c = 'C'.toNat then .ok (0, true)
          else if c = 's'.toNat ∨ c = 'S'.toNat then .ok (-1, false)
          else .error "nesdis: unrecognized mode"
        | none => .error "nesdis: unrecognized mode") ∧
      mexFunction env nargout (a0 :: a1 :: rest) =
        (match first_character a1 with
        | some c =>
          if c = 'r'.toNat ∨ c = 'R'.toNat then
            order env nargout { A0 with stype := 0 } false cm
          else if c = 'c'.toNat ∨ c = 'C'.toNat then
            order env nargout { A0 with stype := 0 } true cm
          else if c = 's'.toNat ∨ c = 'S'.toNat then
            if A0.nrow ≠ A0.ncol then fail "nesdis: A must be square" []
            else order env nargout { A0 with stype := -1 } false cm
          else fail "nesdis: unrecognized mode" []
        | none => fail "nesdis: unrecognized mode" []) := by
  refine ⟨get_mode_cons_cons env hLEN a0 a1 rest, ?_⟩
  have hin1 : 1 ≤ (a0 :: a1 :: rest).length := by simp
  have hin3 : (a0 :: a1 :: rest).length ≤ 3 := by simp; omega
  rw [mexFunction_accepted env nargout (a0 :: a1 :: rest) cm a0 A0 hout hin1 hin3 hopts
    (by simp) hpat, get_mode_cons_cons env hLEN]
  cases hfc : first_character a1 with
  | none => rfl
  | some c =>
    simp only
    split_ifs <;> simp_all

/-- C10 at the mode `'Columns'` on a 2-by-3 matrix: column mode. -/
theorem mode_decided_by_first_character_witness :
    get_mode (sampleEnv 1) [.sparse 2 3 [[0], [1], [0, 1]], .char (chars "Columns")] =
      .ok (0, true) :=
  (mode_decided_by_first_character (sampleEnv 1) (by decide) 3
    (.sparse 2 3 [[0], [1], [0, 1]]) (.char (chars "Columns")) []
    (sampleEnv 1).start { nrow := 2, ncol := 3, stype := 0, cols := [[0], [1], [0, 1]] }
    (by decide) (by decide) (by decide) rfl).1

/-- C5: whenever the engine call of a `nesdis` call returned `ncomp < 0`,
the call stops with `nesdis failed` and none of `p`, `cp`, `cmember` is set. -/
theorem engine_failure_aborts {D R : Type} (env : Env D R) (nargout : Nat)
    (pargin : List (mxArray D)) (call : EngineCall D R)
    (hcall : call ∈ (mexFunction env nargout pargin).calls) (hneg : call.ncomp < 0) :
    (mexFunction env nargout pargin).status = .error "nesdis failed" ∧
      (mexFunction env nargout pargin).p = none ∧
      (mexFunction env nargout pargin).cp = none ∧
      (mexFunction env nargout pargin).cmember = none := by
  rcases mexFunction_cases env nargout pargin with h | ⟨C, cm, -, h⟩
  · rw [h.2.1] at hcall
    simp at hcall
  · rw [h] at hcall ⊢
    rw [return_results_calls] at hcall
    simp only [List.mem_singleton] at hcall
    subst hcall
    rw [return_results_failed _ _ _ _ _ hneg]
    simp [fail]

/-- C5 with an engine that returns `ncomp = -1`: three outputs are requested
and none is produced. -/
theorem engine_failure_aborts_witness :
    (mexFunction (sampleEnv (-1)) 3 [.sparse 2 2 [[0, 1], [1]]]).status =
        .error "nesdis failed" ∧
      (mexFunction (sampleEnv (-1)) 3 [.sparse 2 2 [[0, 1], [1]]]).p = none ∧
      (mexFunction (sampleEnv (-1)) 3 [.sparse 2 2 [[0, 1], [1]]]).cp = none ∧
      (mexFunction (sampleEnv (-1)) 3 [.sparse 2 2 [[0, 1], [1]]]).cmember = none :=
  engine_failure_aborts (sampleEnv (-1)) 3 [.sparse 2 2 [[0, 1], [1]]]
    { C := { nrow := 2, ncol := 2, stype := -1, cols := [[0, 1], [1]] },
      cm := (sampleEnv (-1)).start, n := 2, ncomp := -1 }
    (by decide) (by decide)

/-- C6: in a successful call `cp` is returned exactly when at least two
outputs are requested and `cmember` exactly when three are; a returned `cp`
has `ncomp` entries, which puts `ncomp` between 0 and the `n` entries of the
parent array, and a returned `cmember` has `n` entries. -/
theorem optional_outputs_shapes {D R : Type} (env : Env D R) (nargout : Nat)
    (pargin : List (mxArray D))
    (hok : (mexFunction env nargout pargin).status = .ok) :
    ∃ call : EngineCall D R,
      (mexFunction env nargout pargin).calls = [call] ∧
      ((mexFunction env nargout pargin).cp.isSome = true ↔ 2 ≤ nargout) ∧
      ((mexFunction env nargout pargin).cmember.isSome = true ↔ 3 ≤ nargout) ∧
      (∀ cp, (mexFunction env nargout pargin).cp = some cp →
        (cp.length : Int) = call.ncomp ∧ 0 ≤ call.ncomp ∧ call.ncomp ≤ call.n) ∧
      (∀ m, (mexFunction env nargout pargin).cmember = some m → m.length = call.n) := by
  rcases mexFunction_cases env nargout pargin with h | ⟨C, cm, -, h⟩
  · exact absurd hok h.1
  · rw [h] at hok ⊢
    obtain ⟨h0, -, hcp, hcm, hcplen, hcmlen⟩ := return_results_ok nargout C cm C.nrow _ hok
    refine ⟨_, return_results_calls _ _ _ _ _, hcp, hcm, ?_, hcmlen⟩
    intro cp hcpeq
    exact ⟨(hcplen cp hcpeq).1, h0, (hcplen cp hcpeq).2⟩

/-- C6 at a 3-by-3 matrix with three outputs and an engine reporting two
components. -/
theorem optional_outputs_shapes_witness :
    (mexFunction (sampleEnv 2) 3 [.sparse 3 3 [[0], [1], [2]]]).cp = some [0, 0] ∧
    (mexFunction (sampleEnv 2) 3 [.sparse 3 3 [[0], [1], [2]]]).cmember = some [1, 1, 1] ∧
    ∃ call : EngineCall Int Unit,
      (mexFunction (sampleEnv 2) 3 [.sparse 3 3 [[0], [1], [2]]]).calls = [call] ∧
      ((mexFunction (sampleEnv 2) 3 [.sparse 3 3 [[0], [1], [2]]]).cp.isSome = true ↔
        2 ≤ 3) ∧
      ((mexFunction (sampleEnv 2) 3 [.sparse 3 3 [[0], [1], [2]]]).cmember.isSome = true ↔
        3 ≤ 3) ∧
      (∀ cp, (mexFunction (sampleEnv 2) 3 [.sparse 3 3 [[0], [1], [2]]]).cp = some cp →
        (cp.length : Int) = call.ncomp ∧ 0 ≤ call.ncomp ∧ call.ncomp ≤ call.n) ∧
      (∀ m, (mexFunction (sampleEnv 2) 3 [.sparse 3 3 [[0], [1], [2]]]).cmember = some m →
        m.length = call.n) :=
  ⟨by decide, by decide,
    optional_outputs_shapes (sampleEnv 2) 3 [.sparse 3 3 [[0], [1], [2]]] (by decide)⟩

/-- C9: `nesdis (A, 'col', ...)` and `nesdis (A', 'row', ...)` give the same
outcome, where `A'` is a MATLAB matrix whose pattern is the one
`cholmod_l_transpose` builds from the unsymmetric pattern of `A`.  For an
accepted argument list column mode makes no shape check and calls the engine
exactly once, on `C = cholmod_l_transpose (A)` computed with `A->stype = 0`,
an unsymmetric matrix, with work arrays of `C->nrow` entries; that matrix is
the one row mode hands to its single engine call for `A'`, and the outcome of
both calls is the return section applied to that engine call. -/
theorem col_mode_is_row_mode_of_transpose {D R : Type} (env : Env D R)
    (hLEN : 2 ≤ env.LEN) (nargout : Nat) (a a_t : mxArray D) (rest : List (mxArray D))
    (A A_t : cholmod_sparse)
    (hA : env.sputil2_get_sparse_pattern a = .ok A)
    (hAt : env.sputil2_get_sparse_pattern a_t = .ok A_t)
    (htr : { A_t with stype := 0 } = env.cholmod_l_transpose { A with stype := 0 }) :
    mexFunction env nargout (a :: .char ['c'.toNat, 'o'.toNat, 'l'.toNat] :: rest) =
        mexFunction env nargout (a_t :: .char ['r'.toNat, 'o'.toNat, 'w'.toNat] :: rest) ∧
      get_mode env (a :: .char ['c'.toNat, 'o'.toNat, 'l'.toNat] :: rest) = .ok (0, true) ∧
      get_mode env (a_t :: .char ['r'.toNat, 'o'.toNat, 'w'.toNat] :: rest) =
        .ok (0, false) ∧
      (env.cholmod_l_transpose { A with stype := 0 }).stype = 0 ∧
      (∀ cm : cholmod_common D R, nargout ≤ 3 → rest.length ≤ 1 →
        get_opts env env.start (a :: .char ['c'.toNat, 'o'.toNat, 'l'.toNat] :: rest) =
          some cm →
        mexFunction env nargout (a :: .char ['c'.toNat, 'o'.toNat, 'l'.toNat] :: rest) =
            return_results nargout (env.cholmod_l_transpose { A with stype := 0 }) cm
              (env.cholmod_l_transpose { A with stype := 0 }).nrow
              (env.cholmod_l_nested_dissection
                (env.cholmod_l_transpose { A with stype := 0 }) cm
                (env.cholmod_l_transpose { A with stype := 0 }).nrow) ∧
          (mexFunction env nargout
              (a :: .char ['c'.toNat, 'o'.toNat, 'l'.toNat] :: rest)).calls =
            [{ C := env.cholmod_l_transpose { A with stype := 0 }
               cm := cm
               n := (env.cholmod_l_transpose { A with stype := 0 }).nrow
               ncomp := (env.cholmod_l_nested_dissection
                 (env.cholmod_l_transpose { A with stype := 0 }) cm
                 (env.cholmod_l_transpose { A with stype := 0 }).nrow).ncomp }] ∧
          (mexFunction env nargout
              (a_t :: .char ['r'.toNat, 'o'.toNat, 'w'.toNat] :: rest)).calls =
            [{ C := { A_t with stype := 0 }
               cm := cm
               n := A_t.nrow
               ncomp := (env.cholmod_l_nested_dissection
                 { A_t with stype := 0 } cm A_t.nrow).ncomp }]) := by
  have hcol : get_mode env (a :: .char ['c'.toNat, 'o'.toNat, 'l'.toNat] :: rest) =
      .ok (0, true) := by
    rw [get_mode_cons_cons env hLEN]
    simp [first_character]
  have hrow : get_mode env (a_t :: .char ['r'.toNat, 'o'.toNat, 'w'.toNat] :: rest) =
      .ok (0, false) := by
    rw [get_mode_cons_cons env hLEN]
    simp [first_character]
  have hopt := get_opts_congr env env.start a (.char ['c'.toNat, 'o'.toNat, 'l'.toNat])
    a_t (.char ['r'.toNat, 'o'.toNat, 'w'.toNat]) rest
  have hstype : (env.cholmod_l_transpose { A with stype := 0 }).stype = 0 := by
    rw [← htr]
  have heq : mexFunction env nargout (a :: .char ['c'.toNat, 'o'.toNat, 'l'.toNat] :: rest) =
      mexFunction env nargout (a_t :: .char ['r'.toNat, 'o'.toNat, 'w'.toNat] :: rest) := by
    unfold mexFunction
    rw [hcol, hrow, hopt]
    simp only [List.length_cons, List.getElem?_cons_zero, hA, hAt]
    simp only [order]
    simp
    rw [← htr]
  refine ⟨heq, hcol, hrow, hstype, ?_⟩
  intro cm hout hin3 hopts
  have hin1 : 1 ≤ (a :: mxArray.char ['c'.toNat, 'o'.toNat, 'l'.toNat] :: rest).length := by
    simp
  have hin3b : (a :: mxArray.char ['c'.toNat, 'o'.toNat, 'l'.toNat] :: rest).length ≤ 3 := by
    simp; omega
  have hmex : mexFunction env nargout
      (a :: .char ['c'.toNat, 'o'.toNat, 'l'.toNat] :: rest) =
      return_results nargout (env.cholmod_l_transpose { A with stype := 0 }) cm
        (env.cholmod_l_transpose { A with stype := 0 }).nrow
        (env.cholmod_l_nested_dissection
          (env.cholmod_l_transpose { A with stype := 0 }) cm
          (env.cholmod_l_transpose { A with stype := 0 }).nrow) := by
    rw [mexFunction_accepted env nargout _ cm a A hout hin1 hin3b hopts (by simp) hA, hcol]
    simp [order]
  refine ⟨hmex, ?_, ?_⟩
  · rw [hmex, return_results_calls]
  · rw [← heq, hmex, return_results_calls, ← htr]

/-- C9 at a 2-by-3 matrix `A` and its 3-by-2 transpose, three outputs: the
two outcomes are equal and the engine is called once, on the 3-by-2
unsymmetric pattern, with arrays of 3 entries. -/
theorem col_mode_is_row_mode_of_transpose_witness :
    mexFunction (sampleEnv 1) 3 [.sparse 2 3 [[0], [1], [0, 1]], .char (chars "col")] =
        mexFunction (sampleEnv 1) 3 [.sparse 3 2 [[0, 2], [1, 2]], .char (chars "row")] ∧
      (mexFunction (sampleEnv 1) 3
          [.sparse 2 3 [[0], [1], [0, 1]], .char (chars "col")]).calls =
        [{ C := { nrow := 3, ncol := 2, stype := 0, cols := [[0, 2], [1, 2]] }
           cm := (sampleEnv 1).start
           n := 3
           ncomp := 1 }] :=
  ⟨(col_mode_is_row_mode_of_transpose (sampleEnv 1) (by decide) 3
      (.sparse 2 3 [[0], [1], [0, 1]]) (.sparse 3 2 [[0, 2], [1, 2]]) []
      { nrow := 2, ncol := 3, stype := 0, cols := [[0], [1], [0, 1]] }
      { nrow := 3, ncol := 2, stype := 0, cols := [[0, 2], [1, 2]] } rfl rfl (by decide)).1,
    ((col_mode_is_row_mode_of_transpose (sampleEnv 1) (by decide) 3
      (.sparse 2 3 [[0], [1], [0, 1]]) (.sparse 3 2 [[0, 2], [1, 2]]) []
      { nrow := 2, ncol := 3, stype := 0, cols := [[0], [1], [0, 1]] }
      { nrow := 3, ncol := 2, stype := 0, cols := [[0, 2], [1, 2]] } rfl rfl
      (by decide)).2.2.2.2 (sampleEnv 1).start (by decide) (by decide) (by decide)).2.1⟩

/-- C8: with `opts` a vector `x` of doubles, the `opts` section sets
`nd_small` from `x(1)`, `nd_components` from `x(2)`, `nd_oksep` from `x(3)` and
`nd_camd` from `x(4)`, each only if `x` has that element, and leaves every
other control parameter as it was; elements after the fourth have no effect,
and an empty or absent `opts` changes nothing.  The engine call of
`nesdis (A, mode, x)` receives the defaults changed in just this way. -/
theorem opts_override_first_four {D R : Type} (env : Env D R)
    (cm : cholmod_common D R) (a0 a1 : mxArray D) (x : List D) :
    get_opts env cm [a0, a1, .full x] = some
        { nd_small := ((x[0]?).map env.double_to_size).getD cm.nd_small
          nd_components := ((x[1]?).map env.double_to_int).getD cm.nd_components
          nd_oksep := (x[2]?).getD cm.nd_oksep
          nd_camd := ((x[3]?).map env.double_to_int).getD cm.nd_camd
          other := cm.other } ∧
      get_opts env cm [a0, a1, .full x] = get_opts env cm [a0, a1, .full (x.take 4)] ∧
      get_opts env cm [a0, a1, .full []] = some cm ∧
      get_opts env cm [a0, a1] = some cm ∧
      get_opts env cm [a0] = some cm ∧
      (∀ (nargout : Nat) (call : EngineCall D R),
        call ∈ (mexFunction env nargout [a0, a1, .full x]).calls →
        call.cm =
          { nd_small := ((x[0]?).map env.double_to_size).getD env.start.nd_small
            nd_components := ((x[1]?).map env.double_to_int).getD env.start.nd_components
            nd_oksep := (x[2]?).getD env.start.nd_oksep
            nd_camd := ((x[3]?).map env.double_to_int).getD env.start.nd_camd
            other := env.start.other }) := by
  have key : ∀ (c : cholmod_common D R) (y : List D),
      get_opts env c [a0, a1, .full y] = some
        { nd_small := ((y[0]?).map env.double_to_size).getD c.nd_small
          nd_components := ((y[1]?).map env.double_to_int).getD c.nd_components
          nd_oksep := (y[2]?).getD c.nd_oksep
          nd_camd := ((y[3]?).map env.double_to_int).getD c.nd_camd
          other := c.other } := by
    intro c y
    match y with
    | [] => simp [get_opts, mxGetData, mxGetNumberOfElements]
    | [_] => simp [get_opts, mxGetData, mxGetNumberOfElements]
    | [_, _] => simp [get_opts, mxGetData, mxGetNumberOfElements]
    | [_, _, _] => simp [get_opts, mxGetData, mxGetNumberOfElements]
    | _ :: _ :: _ :: _ :: _ => simp [get_opts, mxGetData, mxGetNumberOfElements]
  refine ⟨key cm x, ?_, ?_, ?_, ?_, ?_⟩
  · rw [key cm x, key cm (x.take 4)]
    match x with
    | [] => rfl
    | [_] => rfl
    | [_, _] => rfl
    | [_, _, _] => rfl
    | _ :: _ :: _ :: _ :: _ => simp
  · rw [key cm []]
    rfl
  · simp [get_opts]
  · simp [get_opts]
  · intro nargout call hcall
    rcases mexFunction_cases env nargout [a0, a1, .full x] with h | ⟨C, c, hc, h⟩
    · rw [h.2.1] at hcall
      simp at hcall
    · rw [h, return_results_calls] at hcall
      simp only [List.mem_singleton] at hcall
      subst hcall
      rw [key env.start x] at hc
      simp only [Option.some.injEq] at hc
      exact hc.symm

/-- C8 at `opts = [5 1 3 0 9]`: the engine call receives `nd_small = 5`,
`nd_components = 1`, `nd_oksep = 3`, `nd_camd = 0`, and the fifth element is
not used. -/
theorem opts_override_first_four_witness :
    ({ C := { nrow := 2, ncol := 3, stype := 0, cols := [[0], [1], [0, 1]] },
       cm := { nd_small := 5, nd_components := 1, nd_oksep := 3, nd_camd := 0, other := () },
       n := 2, ncomp := 1 } : EngineCall Int Unit) ∈
        (mexFunction (sampleEnv 1) 3 [.sparse 2 3 [[0], [1], [0, 1]], .char (chars "row"),
          .full [5, 1, 3, 0, 9]]).calls ∧
      ({ C := { nrow := 2, ncol := 3, stype := 0, cols := [[0], [1], [0, 1]] },
         cm := { nd_small := 5, nd_components := 1, nd_oksep := 3, nd_camd := 0, other := () },
         n := 2, ncomp := 1 } : EngineCall Int Unit).cm =
        { nd_small := 5, nd_components := 1, nd_oksep := 3, nd_camd := 0, other := () } :=
  ⟨by decide,
    (opts_override_first_four (sampleEnv 1) (sampleEnv 1).start
      (.sparse 2 3 [[0], [1], [0, 1]]) (.char (chars "row")) [5, 1, 3, 0, 9]).2.2.2.2.2 3
      { C := { nrow := 2, ncol := 3, stype := 0, cols := [[0], [1], [0, 1]] },
        cm := { nd_small := 5, nd_components := 1, nd_oksep := 3, nd_camd := 0, other := () },
        n := 2, ncomp := 1 } (by decide)⟩

/-- C4: with the ordering engine of the specification, for any separator
oracle, any leaf orderer that meets its contract and any fuel: whenever the
engine call of a `nesdis` call returned `ncomp ≥ 0`, the first output `p` is
set and lists each of the vertex ids `1..n` exactly once (MATLAB counts from
1), `n` being the vertex count of that engine call; this holds whatever
becomes of the optional outputs. -/
theorem permutation_is_bijection {D R : Type} [LinearOrderedRing D] (env : Env D R)
    (find_separator : Graph → OracleResult) (order_leaf : Graph → Mode → List Nat)
    (fuel : Nat) (hleaf : leaf_contract order_leaf)
    (henv : env.cholmod_l_nested_dissection =
      nested_dissection find_separator order_leaf fuel)
    (nargout : Nat) (pargin : List (mxArray D)) (call : EngineCall D R)
    (hcall : call ∈ (mexFunction env nargout pargin).calls)
    (hsucc : 0 ≤ call.ncomp) :
    ∃ p : List Int,
      (mexFunction env nargout pargin).calls = [call] ∧
      (mexFunction env nargout pargin).p = some p ∧
      p.Perm ((List.range call.n).map fun (v : Nat) => (v : Int) + 1) ∧
      p.Nodup := by
  rcases mexFunction_cases env nargout pargin with h | ⟨C, cm, -, h⟩
  · rw [h.2.1] at hcall
    simp at hcall
  · rw [h, henv] at hcall ⊢
    rw [return_results_calls] at hcall ⊢
    simp only [List.mem_singleton] at hcall
    subst hcall
    simp only at hsucc
    have hp := return_results_p nargout C cm C.nrow _ hsucc
    have hperm := nested_dissection_perm find_separator order_leaf hleaf fuel C cm hsucc
    have hp2 : ((List.finRange C.nrow).map fun k =>
          (nested_dissection find_separator order_leaf fuel C cm C.nrow).Perm k + 1).Perm
        ((List.range C.nrow).map fun (v : Nat) => (v : Int) + 1) := by
      have := List.Perm.map (fun z : Int => z + 1) hperm
      rw [List.ofFn_eq_map] at this
      simpa [List.map_map, Function.comp] using this
    refine ⟨_, rfl, hp, hp2, ?_⟩
    rw [hp2.nodup_iff]
    apply List.Nodup.map _ (List.nodup_range _)
    intro a b hab
    simpa using hab

/-- C4 at two calls.  On the path graph of 7 vertices with the middle-cut
oracle and `nd_small = 2` (§8, scenario 3) the call succeeds and `p` is a
permutation of `1..7`.  On a 2-by-2 matrix with `nd_small = 1` and two
outputs the engine returns `ncomp = 3` for `n = 2`: the read of `cp` is
outside the parent array, and `p` is still the permutation `[1, 2]`. -/
theorem permutation_is_bijection_witness :
    ((mexFunction specEnv 3
        [.sparse 7 7 path7, .char (chars "sym"), .full [2]]).p = some [1, 3, 2, 5, 7, 6, 4] ∧
      ∃ p : List Int,
        (mexFunction specEnv 3
          [.sparse 7 7 path7, .char (chars "sym"), .full [2]]).calls =
          [{ C := { nrow := 7, ncol := 7, stype := -1, cols := path7 }
             cm := { specEnv.start with nd_small := 2 }
             n := 7
             ncomp := 7 }] ∧
        (mexFunction specEnv 3
          [.sparse 7 7 path7, .char (chars "sym"), .full [2]]).p = some p ∧
        p.Perm ((List.range 7).map fun (v : Nat) => (v : Int) + 1) ∧
        p.Nodup) ∧
    ((mexFunction specEnv 2
        [.sparse 2 2 [[0, 1], [1]], .char (chars "sym"), .full [1]]).status = .undefined ∧
      (mexFunction specEnv 2
        [.sparse 2 2 [[0, 1], [1]], .char (chars "sym"), .full [1]]).p = some [1, 2] ∧
      ∃ p : List Int,
        (mexFunction specEnv 2
          [.sparse 2 2 [[0, 1], [1]], .char (chars "sym"), .full [1]]).calls =
          [{ C := { nrow := 2, ncol := 2, stype := -1, cols := [[0, 1], [1]] }
             cm := { specEnv.start with nd_small := 1 }
             n := 2
             ncomp := 3 }] ∧
        (mexFunction specEnv 2
          [.sparse 2 2 [[0, 1], [1]], .char (chars "sym"), .full [1]]).p = some p ∧
        p.Perm ((List.range 2).map fun (v : Nat) => (v : Int) + 1) ∧
        p.Nodup) :=
  ⟨⟨by decide,
      permutation_is_bijection specEnv middle_cut natural_leaf 100
        (fun _ _ => List.Perm.refl _) rfl 3
        [.sparse 7 7 path7, .char (chars "sym"), .full [2]]
        { C := { nrow := 7, ncol := 7, stype := -1, cols := path7 }
          cm := { specEnv.start with nd_small := 2 }
          n := 7
          ncomp := 7 } (by decide) (by decide)⟩,
    ⟨by decide, by decide,
      permutation_is_bijection specEnv middle_cut natural_leaf 100
        (fun _ _ => List.Perm.refl _) rfl 2
        [.sparse 2 2 [[0, 1], [1]], .char (chars "sym"), .full [1]]
        { C := { nrow := 2, ncol := 2, stype := -1, cols := [[0, 1], [1]] }
          cm := { specEnv.start with nd_small := 1 }
          n := 2
          ncomp := 3 } (by decide) (by decide)⟩⟩

end Nesdis
